import Mathlib

/-!
Verification of the maze generator/solver core (`src/genericmaze.rs` and the
four topology modules under `src/shapes/`).

The Rust code is shallowly embedded: `usize` becomes `Nat`, `Vec<T>` becomes
`List T`, `Option<usize>` becomes `Option Nat`.  The imperative loops of
`generate` and `solve` become fueled tail-recursive functions; the fuel
passed by the top-level wrappers (`2*N+1` for the two work-list loops, `N`
for the path reconstruction) is proved sufficient below, so the fueled
functions agree with the unbounded Rust loops on every input the program
can build.  Rust indexing `v[i]` (which panics when out of bounds) is
embedded as `List.getD` with a default chosen so that the out-of-bounds
case is never taken on the grids the program builds (this is proved, not
assumed: see the in-bounds well-formedness lemmas).
-/

namespace Maze

/-- Embeds `cell_index` from `src/genericmaze.rs`: `y * width + x`. -/
def cell_index (x y width : Nat) : Nat :=
  y * width + x

/-- Embeds `cell_coords` from `src/genericmaze.rs`: `(idx % width, idx / width)`. -/
def cell_coords (idx width : Nat) : Nat × Nat :=
  (idx % width, idx / width)

/-- Embeds `MazeCell`: a fixed-length neighbor slot list and a parallel wall list. -/
structure MazeCell where
  neighbors : List (Option Nat)
  walls : List Bool
deriving DecidableEq, Repr

/-- Embeds `MazeCell::new`: all slots empty, all walls present. -/
def MazeCell.new (num_neighbors : Nat) : MazeCell :=
  { neighbors := List.replicate num_neighbors none,
    walls := List.replicate num_neighbors true }

/-- Default cell used for out-of-bounds `List.getD` reads (never hit on real grids). -/
def defaultCell : MazeCell :=
  { neighbors := [], walls := [] }

/-- Reads `cells[i]`. -/
def getCell (cells : List MazeCell) (i : Nat) : MazeCell :=
  cells.getD i defaultCell

/-- Embeds the per-cell body of `RectShape::init_neighbors`
(`src/shapes/rect_shape.rs`).  The Rust loop starts from all-`None` slots and
assigns each guarded slot once, so the final slot list of the cell at
`(x, y)` is exactly this list.  Slot order: 0=N, 1=S, 2=E, 3=W. -/
def rectNeighbors (width height x y : Nat) : List (Option Nat) :=
  [ if y > 0 then some (cell_index x (y - 1) width) else none,
    if y < height - 1 then some (cell_index x (y + 1) width) else none,
    if x < width - 1 then some (cell_index (x + 1) y width) else none,
    if x > 0 then some (cell_index (x - 1) y width) else none ]

/-- Embeds the per-cell body of `TriShape::init_neighbors`
(`src/shapes/tri_shape.rs`).  Slot order: 0=left, 1=right,
2=bottom (up triangles, `(x+y) % 2 = 0`) or top (down triangles). -/
def triNeighbors (width height x y : Nat) : List (Option Nat) :=
  if (x + y) % 2 = 0 then
    [ if x > 0 then some (cell_index (x - 1) y width) else none,
      if x < width - 1 then some (cell_index (x + 1) y width) else none,
      if y < height - 1 then some (cell_index x (y + 1) width) else none ]
  else
    [ if x > 0 then some (cell_index (x - 1) y width) else none,
      if x < width - 1 then some (cell_index (x + 1) y width) else none,
      if y > 0 then some (cell_index x (y - 1) width) else none ]

/-- Embeds the per-cell body of `HexShape::init_neighbors`
(`src/shapes/hex_shape.rs`).  Slot order: 0=N, 1=S, 2=NE, 3=SE, 4=NW, 5=SW;
odd columns are offset down. -/
def hexNeighbors (width height x y : Nat) : List (Option Nat) :=
  if x % 2 = 1 then
    [ if y > 0 then some (cell_index x (y - 1) width) else none,
      if y < height - 1 then some (cell_index x (y + 1) width) else none,
      if x < width - 1 then some (cell_index (x + 1) y width) else none,
      if y < height - 1 ∧ x < width - 1 then some (cell_index (x + 1) (y + 1) width) else none,
      if x > 0 then some (cell_index (x - 1) y width) else none,
      if y < height - 1 ∧ x > 0 then some (cell_index (x - 1) (y + 1) width) else none ]
  else
    [ if y > 0 then some (cell_index x (y - 1) width) else none,
      if y < height - 1 then some (cell_index x (y + 1) width) else none,
      if y > 0 ∧ x < width - 1 then some (cell_index (x + 1) (y - 1) width) else none,
      if x < width - 1 then some (cell_index (x + 1) y width) else none,
      if y > 0 ∧ x > 0 then some (cell_index (x - 1) (y - 1) width) else none,
      if x > 0 then some (cell_index (x - 1) y width) else none ]

/-- Embeds `OctShape::is_octagon` (`src/shapes/oct_shape.rs`). -/
def is_octagon (x y : Nat) : Bool :=
  (x + y) % 2 = 0

/-- Embeds the per-cell body of `OctShape::init_neighbors`
(`src/shapes/oct_shape.rs`).  Octagon slots: 0=N, 1=S, 2=E, 3=W, 4=NE, 5=SE,
6=NW, 7=SW; squares use only the first four slots. -/
def octNeighbors (width height x y : Nat) : List (Option Nat) :=
  if is_octagon x y then
    [ if y > 0 then some (cell_index x (y - 1) width) else none,
      if y < height - 1 then some (cell_index x (y + 1) width) else none,
      if x < width - 1 then some (cell_index (x + 1) y width) else none,
      if x > 0 then some (cell_index (x - 1) y width) else none,
      if x < width - 1 ∧ y > 0 then some (cell_index (x + 1) (y - 1) width) else none,
      if x < width - 1 ∧ y < height - 1 then some (cell_index (x + 1) (y + 1) width) else none,
      if x > 0 ∧ y > 0 then some (cell_index (x - 1) (y - 1) width) else none,
      if x > 0 ∧ y < height - 1 then some (cell_index (x - 1) (y + 1) width) else none ]
  else
    [ if y > 0 then some (cell_index x (y - 1) width) else none,
      if y < height - 1 then some (cell_index x (y + 1) width) else none,
      if x < width - 1 then some (cell_index (x + 1) y width) else none,
      if x > 0 then some (cell_index (x - 1) y width) else none,
      none, none, none, none ]

/-- Embeds the `GridType` enum from `src/main.rs` (the four topologies). -/
inductive GridType where
  | rectangular
  | triangular
  | hexagonal
  | octagonal
deriving DecidableEq, Repr

/-- Embeds the per-shape `num_neighbors` methods. -/
def shapeNumNeighbors : GridType → Nat
  | .rectangular => 4
  | .triangular => 3
  | .hexagonal => 6
  | .octagonal => 8

/-- Dispatches the per-cell neighbor computation by topology. -/
def shapeNeighbors : GridType → Nat → Nat → Nat → Nat → List (Option Nat)
  | .rectangular => rectNeighbors
  | .triangular => triNeighbors
  | .hexagonal => hexNeighbors
  | .octagonal => octNeighbors

/-- Embeds `GenericMaze` (the `PhantomData` shape parameter becomes the
`GridType` argument of `GenericMaze.new`). -/
structure GenericMaze where
  width : Nat
  height : Nat
  cells : List MazeCell
deriving DecidableEq, Repr

/-- Embeds `GenericMaze::new`: `width*height` cells built by `MazeCell::new`
and then filled by the shape's `init_neighbors`.  The Rust `init_neighbors`
writes only into cell `y*width + x` during loop iteration `(x, y)`, starting
from the all-`None` slot list, so the cell at flat index `i` ends up with
slot list `shapeNeighbors g width height (i % width) (i / width)` and an
untouched all-`true` wall list. -/
def GenericMaze.new (g : GridType) (width height : Nat) : GenericMaze :=
  { width := width
    height := height
    cells := (List.range (width * height)).map (fun i =>
      { neighbors := shapeNeighbors g width height (i % width) (i / width),
        walls := List.replicate (shapeNumNeighbors g) true }) }

/-! ## Generator (`GenericMaze::generate`, `src/genericmaze.rs` lines 103-141) -/

/-- State of the `generate` loop: the cell array, the `visited` vector and
the DFS stack (head of the list = top of the Rust `Vec` stack). -/
structure GenState where
  cells : List MazeCell
  visited : List Bool
  stack : List Nat
deriving DecidableEq, Repr

/-- Opens (sets to `false`) wall slot `i` of cell `c`:
`self.cells[c].walls[i] = false`. -/
def setWall (cells : List MazeCell) (c i : Nat) : List MazeCell :=
  cells.set c { getCell cells c with walls := (getCell cells c).walls.set i false }

/-- Embeds the `unvisited` collection loop of `generate`: all pairs
`(neighbor, edge_idx)` with a populated slot whose target is unvisited, in
slot order.  Rust reads `visited[neighbor]` (panicking out of bounds); the
embedding defaults an out-of-range read to `true`, which never differs on the
in-bounds grids the program builds. -/
def unvisitedNeighbors (cell : MazeCell) (visited : List Bool) : List (Nat × Nat) :=
  (List.range cell.neighbors.length).filterMap (fun edge_idx =>
    match cell.neighbors.getD edge_idx none with
    | some n => if visited.getD n true then none else some (n, edge_idx)
    | none => none)

/-- Embeds the reverse-edge scan of `generate`: the first slot of `cell`
whose neighbor entry equals `current` (the Rust `for`/`break` scan). -/
def findRev (cell : MazeCell) (current : Nat) : Option Nat :=
  (List.range cell.neighbors.length).find? (fun j =>
    cell.neighbors.getD j none = some current)

/-- One iteration of the `generate` loop body for top-of-stack `current`
(with `rest` below it).  `r` stands for the value drawn from the RNG for
`choose` (Rust picks index `gen_range(0..len)`; the embedding picks
`r % len`, which ranges over the same indices as `r` ranges over `Nat`). -/
def genStep (r : Nat) (s : GenState) (current : Nat) (rest : List Nat) : GenState :=
  let unvisited := unvisitedNeighbors (getCell s.cells current) s.visited
  if unvisited.isEmpty then
    { s with stack := rest }
  else
    let pick := unvisited.getD (r % unvisited.length) (0, 0)
    let next := pick.1
    let edge_idx := pick.2
    let cells1 := setWall s.cells current edge_idx
    let cells2 :=
      match findRev (getCell cells1 next) current with
      | some rev_idx => setWall cells1 next rev_idx
      | none => cells1
    { cells := cells2,
      visited := s.visited.set next true,
      stack := next :: current :: rest }

/-- The fueled `generate` while-loop.  `seeds` supplies one RNG draw per
iteration (every sequence of Rust RNG outcomes is some `seeds`).  Fuel
`2*N+1` is proved sufficient below (`genLoop_stack_empty`), so the fueled
loop computes the same final state as the unbounded Rust loop. -/
def genLoop (seeds : Nat → Nat) : Nat → GenState → GenState
  | 0, s => s
  | fuel + 1, s =>
    match s.stack with
    | [] => s
    | current :: rest => genLoop seeds fuel (genStep (seeds fuel) s current rest)

/-- Embeds `GenericMaze::generate`. -/
def GenericMaze.generate (seeds : Nat → Nat) (m : GenericMaze) : GenericMaze :=
  let n := m.cells.length
  let s0 : GenState :=
    { cells := m.cells, visited := (List.replicate n false).set 0 true, stack := [0] }
  { m with cells := (genLoop seeds (2 * n + 1) s0).cells }

/-! ## Solver (`GenericMaze::solve`, `src/genericmaze.rs` lines 144-185) -/

/-- State of the BFS loop: queue (head = front), `visited`, and the parent
map.  The Rust `HashMap` is embedded as an association list with the newest
binding at the head; keys are inserted only when first visited, so they are
distinct and `find?` agrees with `HashMap::get`. -/
structure SolveState where
  queue : List Nat
  visited : List Bool
  parent : List (Nat × Nat)
deriving DecidableEq, Repr

/-- One slot check of the neighbor-relaxation `for` loop of a BFS iteration:
if slot `edge_idx` of `current` is populated, its wall open and its target
unvisited, mark the target visited, record its parent and enqueue it. -/
def relaxStep (cells : List MazeCell) (current : Nat) (st : SolveState)
    (edge_idx : Nat) : SolveState :=
  match (getCell cells current).neighbors.getD edge_idx none with
  | some n =>
    if (getCell cells current).walls.getD edge_idx true = false
        ∧ st.visited.getD n true = false then
      { queue := st.queue ++ [n],
        visited := st.visited.set n true,
        parent := (n, current) :: st.parent }
    else st
  | none => st

/-- Folds `relaxStep` over a list of slot indices. -/
def relaxGo (cells : List MazeCell) (current : Nat) (st : SolveState)
    (idxs : List Nat) : SolveState :=
  idxs.foldl (relaxStep cells current) st

/-- Embeds the neighbor-relaxation `for` loop of one BFS iteration: scan the
slots of `current` in order. -/
def relax (cells : List MazeCell) (current : Nat) (st : SolveState) : SolveState :=
  relaxGo cells current st (List.range (getCell cells current).neighbors.length)

/-- The fueled BFS while-loop, breaking when `current = endCell` is popped.
Fuel `2*N+1` is proved sufficient below. -/
def bfsLoop (cells : List MazeCell) (endCell : Nat) : Nat → SolveState → SolveState
  | 0, st => st
  | fuel + 1, st =>
    match st.queue with
    | [] => st
    | current :: rest =>
      if current = endCell then { st with queue := rest }
      else bfsLoop cells endCell fuel (relax cells current { st with queue := rest })

/-- Embeds `parent.get(&k)`. -/
def lookupParent (parent : List (Nat × Nat)) (k : Nat) : Option Nat :=
  (parent.find? (fun p => p.1 = k)).map (fun p => p.2)

/-- The fueled path-reconstruction while-loop of `solve` (walk parent links
from the end cell until reaching 0 or a cell with no parent, appending each
parent).  Fuel `N` is proved sufficient below. -/
def buildPath (parent : List (Nat × Nat)) : Nat → Nat → List Nat → List Nat
  | 0, _, path => path
  | fuel + 1, current, path =>
    if current = 0 then path
    else
      match lookupParent parent current with
      | some prev => buildPath parent fuel prev (path ++ [prev])
      | none => path

/-- Embeds `GenericMaze::solve` on a cell array (the method reads only
`self.cells`). -/
def solveCells (cells : List MazeCell) : List Nat :=
  let endCell := cells.length - 1
  let st0 : SolveState :=
    { queue := [0],
      visited := (List.replicate cells.length false).set 0 true,
      parent := [] }
  let stf := bfsLoop cells endCell (2 * cells.length + 1) st0
  (buildPath stf.parent cells.length endCell [endCell]).reverse

/-- Embeds `GenericMaze::solve`. -/
def GenericMaze.solve (m : GenericMaze) : List Nat :=
  solveCells m.cells

/-! ## Graph notions used by the statements -/

/-- Directed neighbor adjacency of the grid: some slot of `a` holds `b`. -/
def nbrAdj (cells : List MazeCell) (a b : Nat) : Prop :=
  ∃ i, (getCell cells a).neighbors.getD i none = some b

/-- Reachability from cell 0 through the neighbor graph (walls ignored). -/
def NReach (cells : List MazeCell) (v : Nat) : Prop :=
  Relation.ReflTransGen (nbrAdj cells) 0 v

/-- Open-wall adjacency: some slot of `a` holds `b` and its wall is open. -/
def openAdj (cells : List MazeCell) (a b : Nat) : Prop :=
  ∃ i, (getCell cells a).neighbors.getD i none = some b
    ∧ (getCell cells a).walls.getD i true = false

/-- A walk of exactly `n` open-wall edges from `a` to `b`:
a vertex list of length `n+1` chained by `openAdj`. -/
def ReachInN (cells : List MazeCell) (n a b : Nat) : Prop :=
  ∃ xs : List Nat, xs.Chain' (openAdj cells) ∧ xs.head? = some a
    ∧ xs.getLast? = some b ∧ xs.length = n + 1

/-- Reachability through open walls. -/
def OpenReach (cells : List MazeCell) (a b : Nat) : Prop :=
  ∃ n, ReachInN cells n a b

/-- The open-wall distance from `a` to `b` (defined when reachable). -/
noncomputable def openDist (cells : List MazeCell) (a b : Nat) : Nat :=
  sInf { n | ReachInN cells n a b }

/-- The `(c, neighbor)` pairs of all open slots of cell `c`. -/
def openCellEntries (cells : List MazeCell) (c : Nat) : List (Nat × Nat) :=
  (List.range (getCell cells c).neighbors.length).filterMap (fun i =>
    match (getCell cells c).neighbors.getD i none with
    | some n => if (getCell cells c).walls.getD i true = false then some (c, n) else none
    | none => none)

/-- All directed open slot targets, as `(cell, neighbor)` pairs. -/
def openDirected (cells : List MazeCell) : List (Nat × Nat) :=
  (List.range cells.length).flatMap (openCellEntries cells)

/-- Number of undirected open wall-pairs, counted once per unordered pair
via the orientation `c < n` (by the pair-consistency theorem each opened
undirected edge contributes exactly one such entry). -/
def openPairCount (cells : List MazeCell) : Nat :=
  (openDirected cells).countP (fun p => p.1 < p.2)

/-- A simple cycle in the open-wall graph: at least three distinct vertices,
consecutive ones (cyclically) joined by open walls. -/
def IsOpenCycle (cells : List MazeCell) (xs : List Nat) : Prop :=
  3 ≤ xs.length ∧ xs.Nodup ∧ xs.Chain' (openAdj cells)
    ∧ ∀ a b, xs.getLast? = some a → xs.head? = some b → openAdj cells a b

/-- Number of populated (`Some`) neighbor slots of cell `c`. -/
def countPopulated (m : GenericMaze) (c : Nat) : Nat :=
  (getCell m.cells c).neighbors.countP (fun o => o.isSome)

/-- Every wall flag of every cell is `true` (the freshly built state). -/
def allWallsTrue (cells : List MazeCell) : Prop :=
  ∀ c i, (getCell cells c).walls.getD i true = true

/-- Well-formedness of a cell array, satisfied by all four topology
initializers: neighbor indices are in bounds, no self-loops, no two slots of
a cell hold the same neighbor, the relation is symmetric, and the wall list
parallels the neighbor list. -/
structure CellsWF (cells : List MazeCell) : Prop where
  inBounds : ∀ c i n, (getCell cells c).neighbors.getD i none = some n → n < cells.length
  irrefl : ∀ c i n, (getCell cells c).neighbors.getD i none = some n → n ≠ c
  uniq : ∀ c i j n, (getCell cells c).neighbors.getD i none = some n →
    (getCell cells c).neighbors.getD j none = some n → i = j
  symm : ∀ c i n, (getCell cells c).neighbors.getD i none = some n →
    ∃ j, (getCell cells n).neighbors.getD j none = some c
  wallsLen : ∀ c, (getCell cells c).walls.length = (getCell cells c).neighbors.length

/-- Instrumented variant of `genLoop` that also records, in order, every
cell index pushed on the stack by the loop (ghost data for the
no-double-push statement; `genLoopTr_fst` shows the state component is the
same as `genLoop`). -/
def genLoopTr (seeds : Nat → Nat) : Nat → GenState → List Nat → GenState × List Nat
  | 0, s, acc => (s, acc)
  | fuel + 1, s, acc =>
    match s.stack with
    | [] => (s, acc)
    | current :: rest =>
      let unvisited := unvisitedNeighbors (getCell s.cells current) s.visited
      if unvisited.isEmpty then
        genLoopTr seeds fuel { s with stack := rest } acc
      else
        genLoopTr seeds fuel (genStep (seeds fuel) s current rest)
          (acc ++ [(unvisited.getD (seeds fuel % unvisited.length) (0, 0)).1])

/-- The intended hexagonal neighbor target of the claim, as a point in ℤ²:
N and S are the cells directly above and below; for odd columns NE/SE/NW/SW
shift the row down, for even columns the diagonal mapping is flipped
vertically (row shifted up). -/
def hexClaimTarget (x y slot : Nat) : Int × Int :=
  if x % 2 = 1 then
    match slot with
    | 0 => ((x : Int), (y : Int) - 1)
    | 1 => ((x : Int), (y : Int) + 1)
    | 2 => ((x : Int) + 1, (y : Int))
    | 3 => ((x : Int) + 1, (y : Int) + 1)
    | 4 => ((x : Int) - 1, (y : Int))
    | _ => ((x : Int) - 1, (y : Int) + 1)
  else
    match slot with
    | 0 => ((x : Int), (y : Int) - 1)
    | 1 => ((x : Int), (y : Int) + 1)
    | 2 => ((x : Int) + 1, (y : Int) - 1)
    | 3 => ((x : Int) + 1, (y : Int))
    | 4 => ((x : Int) - 1, (y : Int) - 1)
    | _ => ((x : Int) - 1, (y : Int))

/-- The point `p` lies inside the `width × height` grid. -/
def inGridZ (width height : Nat) (p : Int × Int) : Prop :=
  0 ≤ p.1 ∧ p.1 < (width : Int) ∧ 0 ≤ p.2 ∧ p.2 < (height : Int)

/-- Invariant of the BFS loop of `solve`.  `levels` is the standard queue
shape: the queue splits into a prefix of cells at distance `d` and a suffix
at distance `d+1`, every in-bounds cell at distance ≤ `d` is already
visited, and every visited cell has distance ≤ `d+1`; the parent map stores,
for every visited cell except 0, an open-wall predecessor one level closer
to the source. -/
structure BfsInv (cells : List MazeCell) (st : SolveState) : Prop where
  visLen : st.visited.length = cells.length
  vis0 : st.visited.getD 0 false = true
  queueVis : ∀ v ∈ st.queue, st.visited.getD v false = true
  visReach : ∀ v, st.visited.getD v false = true → OpenReach cells 0 v
  parentKeys : (st.parent.map Prod.fst).Nodup
  parentVis : ∀ k p, (k, p) ∈ st.parent → st.visited.getD k false = true
    ∧ st.visited.getD p false = true ∧ openAdj cells p k ∧ k ≠ 0
  parentCover : ∀ v, st.visited.getD v false = true → v ≠ 0 → v ∈ st.parent.map Prod.fst
  parentDist : ∀ k p, (k, p) ∈ st.parent →
    openDist cells 0 k = openDist cells 0 p + 1
  processed : ∀ v, st.visited.getD v false = true → v ∉ st.queue →
    ∀ w, w < cells.length → openAdj cells v w → st.visited.getD w false = true
  levels : ∃ d A B, st.queue = A ++ B
    ∧ (∀ u ∈ A, openDist cells 0 u = d)
    ∧ (∀ u ∈ B, openDist cells 0 u = d + 1)
    ∧ (∀ v, v < cells.length → OpenReach cells 0 v → openDist cells 0 v ≤ d →
        st.visited.getD v false = true)
    ∧ (∀ v, st.visited.getD v false = true → openDist cells 0 v ≤ d + 1)

/-- The facts about a BFS state that survive the early `break` of the loop
(everything except the queue-shape fields). -/
structure BfsPost (cells : List MazeCell) (st : SolveState) : Prop where
  visLen : st.visited.length = cells.length
  vis0 : st.visited.getD 0 false = true
  visReach : ∀ v, st.visited.getD v false = true → OpenReach cells 0 v
  parentKeys : (st.parent.map Prod.fst).Nodup
  parentVis : ∀ k p, (k, p) ∈ st.parent → st.visited.getD k false = true
    ∧ st.visited.getD p false = true ∧ openAdj cells p k ∧ k ≠ 0
  parentCover : ∀ v, st.visited.getD v false = true → v ≠ 0 → v ∈ st.parent.map Prod.fst
  parentDist : ∀ k p, (k, p) ∈ st.parent →
    openDist cells 0 k = openDist cells 0 p + 1

/-- Discovery order of a cell relative to the ghost tree-edge list `T` of the
generator: the root 0 has order 0, and the `k`-th discovered child has order
`k+1`. -/
def Tord (T : List (Nat × Nat)) (v : Nat) : Nat :=
  if v = 0 then 0 else (T.map Prod.snd).indexOf v + 1

/-- Invariant of the `generate` loop, relative to the initial cell array
`cells0` and a ghost list `T` of tree edges `(parent, child)` in discovery
order.  It packages: the loop never changes the neighbor structure, the
stack holds distinct visited cells, visited cells are reachable, fully
processed cells have all neighbors visited, `T` lists each non-root visited
cell exactly once as a child of an earlier-visited cell, exactly the walls
of `T`-edges are open, and the visited count is `|T| + 1`. -/
structure GenInv (cells0 : List MazeCell) (s : GenState) (T : List (Nat × Nat)) : Prop where
  lenCells : s.cells.length = cells0.length
  nbrs : ∀ c, (getCell s.cells c).neighbors = (getCell cells0 c).neighbors
  wallsLen : ∀ c, (getCell s.cells c).walls.length = (getCell cells0 c).walls.length
  visLen : s.visited.length = cells0.length
  vis0 : s.visited.getD 0 false = true
  stackVis : ∀ v ∈ s.stack, s.visited.getD v false = true
  stackNodup : s.stack.Nodup
  visReach : ∀ v, s.visited.getD v false = true → NReach cells0 v
  popped : ∀ v, s.visited.getD v false = true → v ∉ s.stack →
    ∀ i n, (getCell cells0 v).neighbors.getD i none = some n →
      s.visited.getD n false = true
  Tmem : ∀ p q, (p, q) ∈ T → s.visited.getD p false = true
    ∧ s.visited.getD q false = true ∧ nbrAdj cells0 p q ∧ nbrAdj cells0 q p ∧ q ≠ 0
  TsndNodup : (T.map Prod.snd).Nodup
  TsndChar : ∀ v, v ∈ T.map Prod.snd ↔ (s.visited.getD v false = true ∧ v ≠ 0)
  Tprog : ∀ (k : Nat) (hk : k < T.length), (T.get ⟨k, hk⟩).1 = 0 ∨
    (T.get ⟨k, hk⟩).1 ∈ (T.take k).map Prod.snd
  wallChar : ∀ c i, ((getCell s.cells c).walls.getD i true = false ↔
    ∃ n, (getCell cells0 c).neighbors.getD i none = some n ∧ ((c, n) ∈ T ∨ (n, c) ∈ T))
  countT : s.visited.count true = T.length + 1

instance (width height : Nat) (p : Int × Int) : Decidable (inGridZ width height p) := by
  unfold inGridZ
  infer_instance

/-! ## Basic lemmas about the grid construction -/

theorem cell_index_mod (x y w : Nat) (hx : x < w) : cell_index x y w % w = x := by
  unfold cell_index
  rw [Nat.mul_add_mod', Nat.mod_eq_of_lt hx]

theorem cell_index_div (x y w : Nat) (hx : x < w) : cell_index x y w / w = y := by
  unfold cell_index
  rw [Nat.add_comm, Nat.mul_comm, Nat.add_mul_div_left _ _ (Nat.lt_of_le_of_lt (Nat.zero_le x) hx),
    Nat.div_eq_of_lt hx, Nat.zero_add]

theorem cell_index_lt (x y w h : Nat) (hx : x < w) (hy : y < h) :
    cell_index x y w < w * h := by
  unfold cell_index
  calc y * w + x < y * w + w := by omega
    _ = (y + 1) * w := by ring
    _ ≤ h * w := Nat.mul_le_mul_right w hy
    _ = w * h := Nat.mul_comm h w

theorem new_cells_length (g : GridType) (w h : Nat) :
    (GenericMaze.new g w h).cells.length = w * h := by
  simp [GenericMaze.new]

theorem getCell_new (g : GridType) (w h c : Nat) :
    getCell (GenericMaze.new g w h).cells c =
      if c < w * h then
        { neighbors := shapeNeighbors g w h (c % w) (c / w),
          walls := List.replicate (shapeNumNeighbors g) true }
      else defaultCell := by
  unfold getCell GenericMaze.new
  rw [List.getD_eq_getElem?_getD]
  by_cases hc : c < w * h
  · rw [List.getElem?_eq_getElem (by simpa using hc)]
    simp [hc]
  · rw [List.getElem?_eq_none (by simpa using Nat.le_of_not_lt hc)]
    simp [hc]

theorem getCell_ge (cells : List MazeCell) (c : Nat) (hc : cells.length ≤ c) :
    getCell cells c = defaultCell := by
  unfold getCell
  exact List.getD_eq_default _ _ (by simpa using hc)

/-! ## C5: octagon corner cells -/

/-- C5 counterexample: the claim that each of the two corner octagon cells of
the 3×3 octagon+square grid has exactly 4 populated neighbor slots is false:
the construction populates only 3 slots of cell 0 and of cell 8. -/
theorem oct33_corner_not_four :
    ¬ (is_octagon 0 0 = true ∧ is_octagon 2 2 = true
      ∧ countPopulated (GenericMaze.new .octagonal 3 3) 0 = 4
      ∧ countPopulated (GenericMaze.new .octagonal 3 3) 8 = 4) := by
  decide

/-- C5 (amended): in the octagon+square topology at `width = 3, height = 3`,
cell 0 = (0,0) and cell 8 = (2,2) are both octagon cells, and the topology
assigns each of them exactly 3 populated neighbor slots (the corner removes
five of the theoretical eight). -/
theorem oct33_corner_three :
    cell_coords 0 3 = (0, 0) ∧ cell_coords 8 3 = (2, 2)
    ∧ is_octagon 0 0 = true ∧ is_octagon 2 2 = true
    ∧ countPopulated (GenericMaze.new .octagonal 3 3) 0 = 3
    ∧ countPopulated (GenericMaze.new .octagonal 3 3) 8 = 3 := by
  decide

/-! ## C8: determinism of `solve` -/

/-- C8: `solve` reads only the grid's cell state, so two calls on the same
unchanged grid return the same sequence of cell indices. -/
theorem solve_deterministic (m1 m2 : GenericMaze) (hcells : m1.cells = m2.cells) :
    m1.solve = m2.solve := by
  unfold GenericMaze.solve
  rw [hcells]

/-- Witness for `solve_deterministic` at a concrete grid. -/
theorem solve_deterministic_witness :
    (GenericMaze.mk 9 9 (GenericMaze.new .rectangular 2 2).cells).solve
      = (GenericMaze.new .rectangular 2 2).solve :=
  solve_deterministic _ _ rfl

/-! ## C9: the 1×1 grid -/

/-- C9: on a 1×1 grid of any topology, `generate` opens zero walls (the cell
state, in particular every wall flag, is unchanged and all-true) and `solve`
returns the single-element path `[0]`, whatever the random draws are. -/
theorem generate_solve_one_by_one (g : GridType) (seeds : Nat → Nat) :
    ((GenericMaze.new g 1 1).generate seeds).cells = (GenericMaze.new g 1 1).cells
    ∧ allWallsTrue ((GenericMaze.new g 1 1).generate seeds).cells
    ∧ ((GenericMaze.new g 1 1).generate seeds).solve = [0] := by
  have hcells : ((GenericMaze.new g 1 1).generate seeds).cells
      = (GenericMaze.new g 1 1).cells := by
    cases g <;> rfl
  refine ⟨hcells, ?_, ?_⟩
  · intro c i
    rw [hcells]
    by_cases hc : c < 1 * 1
    · rw [getCell_new, if_pos hc]
      rw [List.getD_eq_getElem?_getD]
      by_cases hi : i < shapeNumNeighbors g
      · rw [List.getElem?_eq_getElem (by simpa using hi)]
        simp
      · rw [List.getElem?_eq_none (by simpa using Nat.le_of_not_lt hi)]
        rfl
    · rw [getCell_new, if_neg hc]
      rfl
  · show solveCells _ = [0]
    rw [hcells]
    cases g <;> rfl

/-! ## C6: hexagonal slot semantics -/

/-- C6: for the hexagonal topology and every cell `(x, y)` of the grid, slot
0 (N) and slot 1 (S) hold the cells directly above and below regardless of
column parity, slots 2-5 (NE, SE, NW, SW) hold the right/left cells with the
row shifted down for odd columns and the mapping flipped vertically (row
shifted up) for even columns, and each slot is absent exactly when its
target falls outside the grid. -/
theorem hex_neighbor_semantics (w h x y slot : Nat) (hx : x < w) (hy : y < h)
    (hslot : slot < 6) :
    (hexNeighbors w h x y).getD slot none =
      if inGridZ w h (hexClaimTarget x y slot) then
        some (cell_index (hexClaimTarget x y slot).1.toNat (hexClaimTarget x y slot).2.toNat w)
      else none := by
  by_cases hp : x % 2 = 1
  · unfold hexNeighbors hexClaimTarget
    rw [if_pos hp, if_pos hp]
    interval_cases slot <;>
      simp only [List.getD_cons_zero, List.getD_cons_succ] <;>
      split_ifs with h1 h2 <;>
      first
        | rfl
        | (exfalso; simp only [inGridZ] at *; omega)
        | (congr 2 <;> omega)
  · unfold hexNeighbors hexClaimTarget
    rw [if_neg hp, if_neg hp]
    interval_cases slot <;>
      simp only [List.getD_cons_zero, List.getD_cons_succ] <;>
      split_ifs with h1 h2 <;>
      first
        | rfl
        | (exfalso; simp only [inGridZ] at *; omega)
        | (congr 2 <;> omega)

/-- Witness for `hex_neighbor_semantics`: the SE slot of odd-column cell
(1,0) in a 3×2 hexagonal grid holds the down-right cell (2,1) = index 5. -/
theorem hex_neighbor_semantics_witness :
    (hexNeighbors 3 2 1 0).getD 3 none =
      if inGridZ 3 2 (hexClaimTarget 1 0 3) then
        some (cell_index (hexClaimTarget 1 0 3).1.toNat (hexClaimTarget 1 0 3).2.toNat 3)
      else none :=
  hex_neighbor_semantics 3 2 1 0 3 (by decide) (by decide) (by decide)

/-! ## Per-topology neighbor characterizations -/

theorem cell_index_inj (tx ty tx2 ty2 w : Nat) (h1 : tx < w) (h2 : tx2 < w)
    (he : cell_index tx ty w = cell_index tx2 ty2 w) : tx = tx2 ∧ ty = ty2 := by
  constructor
  · have a1 := cell_index_mod tx ty w h1
    have a2 := cell_index_mod tx2 ty2 w h2
    rw [he] at a1
    omega
  · have a1 := cell_index_div tx ty w h1
    have a2 := cell_index_div tx2 ty2 w h2
    rw [he] at a1
    omega

theorem rect_elim (w h x y i n : Nat) (hx : x < w) (hy : y < h)
    (hn : (rectNeighbors w h x y).getD i none = some n) :
    ∃ tx ty, tx < w ∧ ty < h ∧ n = cell_index tx ty w ∧
      ((i = 0 ∧ 0 < y ∧ tx = x ∧ ty = y - 1) ∨
       (i = 1 ∧ y < h - 1 ∧ tx = x ∧ ty = y + 1) ∨
       (i = 2 ∧ x < w - 1 ∧ tx = x + 1 ∧ ty = y) ∨
       (i = 3 ∧ 0 < x ∧ tx = x - 1 ∧ ty = y)) := by
  have hi : i < 4 := by
    by_contra hge
    rw [List.getD_eq_default _ _ (by simp [rectNeighbors]; omega)] at hn
    exact Option.noConfusion hn
  unfold rectNeighbors at hn
  interval_cases i <;>
    simp only [List.getD_cons_zero, List.getD_cons_succ] at hn <;>
    split_ifs at hn with hc <;>
    (injection hn with hn2) <;>
    exact ⟨_, _, by omega, by omega, hn2.symm, by omega⟩

theorem rect_symm (w h x y i n : Nat) (hx : x < w) (hy : y < h)
    (hn : (rectNeighbors w h x y).getD i none = some n) :
    ∃ j, (rectNeighbors w h (n % w) (n / w)).getD j none = some (cell_index x y w) := by
  obtain ⟨tx, ty, htx, hty, hne, hcase⟩ := rect_elim w h x y i n hx hy hn
  subst hne
  rw [cell_index_mod _ _ _ htx, cell_index_div _ _ _ htx]
  unfold rectNeighbors
  rcases hcase with ⟨_, hc, hxx, hyy⟩ | ⟨_, hc, hxx, hyy⟩ | ⟨_, hc, hxx, hyy⟩ | ⟨_, hc, hxx, hyy⟩
  · refine ⟨1, ?_⟩
    simp only [List.getD_cons_zero, List.getD_cons_succ]
    rw [if_pos (show ty < h - 1 by omega)]
    congr 2 <;> omega
  · refine ⟨0, ?_⟩
    simp only [List.getD_cons_zero, List.getD_cons_succ]
    rw [if_pos (show ty > 0 by omega)]
    congr 2 <;> omega
  · refine ⟨3, ?_⟩
    simp only [List.getD_cons_zero, List.getD_cons_succ]
    rw [if_pos (show tx > 0 by omega)]
    congr 2 <;> omega
  · refine ⟨2, ?_⟩
    simp only [List.getD_cons_zero, List.getD_cons_succ]
    rw [if_pos (show tx < w - 1 by omega)]
    congr 2 <;> omega

theorem tri_elim (w h x y i n : Nat) (hx : x < w) (hy : y < h)
    (hn : (triNeighbors w h x y).getD i none = some n) :
    ∃ tx ty, tx < w ∧ ty < h ∧ n = cell_index tx ty w ∧
      (((x + y) % 2 = 0 ∧ i = 0 ∧ 0 < x ∧ tx = x - 1 ∧ ty = y) ∨
       ((x + y) % 2 = 0 ∧ i = 1 ∧ x < w - 1 ∧ tx = x + 1 ∧ ty = y) ∨
       ((x + y) % 2 = 0 ∧ i = 2 ∧ y < h - 1 ∧ tx = x ∧ ty = y + 1) ∨
       ((x + y) % 2 ≠ 0 ∧ i = 0 ∧ 0 < x ∧ tx = x - 1 ∧ ty = y) ∨
       ((x + y) % 2 ≠ 0 ∧ i = 1 ∧ x < w - 1 ∧ tx = x + 1 ∧ ty = y) ∨
       ((x + y) % 2 ≠ 0 ∧ i = 2 ∧ 0 < y ∧ tx = x ∧ ty = y - 1)) := by
  unfold triNeighbors at hn
  by_cases hp : (x + y) % 2 = 0
  · rw [if_pos hp] at hn
    have hi : i < 3 := by
      by_contra hge
      rw [List.getD_eq_default _ _ (by simp; omega)] at hn
      exact Option.noConfusion hn
    interval_cases i
    · simp only [List.getD_cons_zero] at hn
      split_ifs at hn with hc
      injection hn with hn2
      exact ⟨x - 1, y, by omega, hy, hn2.symm, Or.inl ⟨hp, rfl, hc, rfl, rfl⟩⟩
    · simp only [List.getD_cons_zero, List.getD_cons_succ] at hn
      split_ifs at hn with hc
      injection hn with hn2
      exact ⟨x + 1, y, by omega, hy, hn2.symm, Or.inr (Or.inl ⟨hp, rfl, hc, rfl, rfl⟩)⟩
    · simp only [List.getD_cons_zero, List.getD_cons_succ] at hn
      split_ifs at hn with hc
      injection hn with hn2
      exact ⟨x, y + 1, hx, by omega, hn2.symm, Or.inr (Or.inr (Or.inl ⟨hp, rfl, hc, rfl, rfl⟩))⟩
  · rw [if_neg hp] at hn
    have hi : i < 3 := by
      by_contra hge
      rw [List.getD_eq_default _ _ (by simp; omega)] at hn
      exact Option.noConfusion hn
    interval_cases i
    · simp only [List.getD_cons_zero] at hn
      split_ifs at hn with hc
      injection hn with hn2
      exact ⟨x - 1, y, by omega, hy, hn2.symm,
        Or.inr (Or.inr (Or.inr (Or.inl ⟨hp, rfl, hc, rfl, rfl⟩)))⟩
    · simp only [List.getD_cons_zero, List.getD_cons_succ] at hn
      split_ifs at hn with hc
      injection hn with hn2
      exact ⟨x + 1, y, by omega, hy, hn2.symm,
        Or.inr (Or.inr (Or.inr (Or.inr (Or.inl ⟨hp, rfl, hc, rfl, rfl⟩))))⟩
    · simp only [List.getD_cons_zero, List.getD_cons_succ] at hn
      split_ifs at hn with hc
      injection hn with hn2
      exact ⟨x, y - 1, hx, by omega, hn2.symm,
        Or.inr (Or.inr (Or.inr (Or.inr (Or.inr ⟨hp, rfl, hc, rfl, rfl⟩))))⟩

theorem tri_symm (w h x y i n : Nat) (hx : x < w) (hy : y < h)
    (hn : (triNeighbors w h x y).getD i none = some n) :
    ∃ j, (triNeighbors w h (n % w) (n / w)).getD j none = some (cell_index x y w) := by
  obtain ⟨tx, ty, htx, hty, hne, hcase⟩ := tri_elim w h x y i n hx hy hn
  subst hne
  rw [cell_index_mod _ _ _ htx, cell_index_div _ _ _ htx]
  unfold triNeighbors
  rcases hcase with ⟨hp, _, hc, hxx, hyy⟩ | ⟨hp, _, hc, hxx, hyy⟩ | ⟨hp, _, hc, hxx, hyy⟩ |
    ⟨hp, _, hc, hxx, hyy⟩ | ⟨hp, _, hc, hxx, hyy⟩ | ⟨hp, _, hc, hxx, hyy⟩
  · refine ⟨1, ?_⟩
    rw [if_neg (show ¬ (tx + ty) % 2 = 0 by omega)]
    simp only [List.getD_cons_zero, List.getD_cons_succ]
    rw [if_pos (show tx < w - 1 by omega)]
    congr 2 <;> omega
  · refine ⟨0, ?_⟩
    rw [if_neg (show ¬ (tx + ty) % 2 = 0 by omega)]
    simp only [List.getD_cons_zero, List.getD_cons_succ]
    rw [if_pos (show tx > 0 by omega)]
    congr 2 <;> omega
  · refine ⟨2, ?_⟩
    rw [if_neg (show ¬ (tx + ty) % 2 = 0 by omega)]
    simp only [List.getD_cons_zero, List.getD_cons_succ]
    rw [if_pos (show ty > 0 by omega)]
    congr 2 <;> omega
  · refine ⟨1, ?_⟩
    rw [if_pos (show (tx + ty) % 2 = 0 by omega)]
    simp only [List.getD_cons_zero, List.getD_cons_succ]
    rw [if_pos (show tx < w - 1 by omega)]
    congr 2 <;> omega
  · refine ⟨0, ?_⟩
    rw [if_pos (show (tx + ty) % 2 = 0 by omega)]
    simp only [List.getD_cons_zero, List.getD_cons_succ]
    rw [if_pos (show tx > 0 by omega)]
    congr 2 <;> omega
  · refine ⟨2, ?_⟩
    rw [if_pos (show (tx + ty) % 2 = 0 by omega)]
    simp only [List.getD_cons_zero, List.getD_cons_succ]
    rw [if_pos (show ty < h - 1 by omega)]
    congr 2 <;> omega

theorem hex_elim_odd (w h x y i n : Nat) (hx : x < w) (hy : y < h) (hp : x % 2 = 1)
    (hn : (hexNeighbors w h x y).getD i none = some n) :
    ∃ tx ty, tx < w ∧ ty < h ∧ n = cell_index tx ty w ∧
      ((i = 0 ∧ 0 < y ∧ tx = x ∧ ty = y - 1) ∨
       (i = 1 ∧ y < h - 1 ∧ tx = x ∧ ty = y + 1) ∨
       (i = 2 ∧ x < w - 1 ∧ tx = x + 1 ∧ ty = y) ∨
       (i = 3 ∧ (y < h - 1 ∧ x < w - 1) ∧ tx = x + 1 ∧ ty = y + 1) ∨
       (i = 4 ∧ 0 < x ∧ tx = x - 1 ∧ ty = y) ∨
       (i = 5 ∧ (y < h - 1 ∧ 0 < x) ∧ tx = x - 1 ∧ ty = y + 1)) := by
  unfold hexNeighbors at hn
  rw [if_pos hp] at hn
  have hi : i < 6 := by
    by_contra hge
    rw [List.getD_eq_default _ _ (by simp; omega)] at hn
    exact Option.noConfusion hn
  interval_cases i
  · simp only [List.getD_cons_zero] at hn
    split_ifs at hn with hc
    injection hn with hn2
    exact ⟨x, y - 1, hx, by omega, hn2.symm, Or.inl ⟨rfl, hc, rfl, rfl⟩⟩
  · simp only [List.getD_cons_zero, List.getD_cons_succ] at hn
    split_ifs at hn with hc
    injection hn with hn2
    exact ⟨x, y + 1, hx, by omega, hn2.symm, Or.inr (Or.inl ⟨rfl, hc, rfl, rfl⟩)⟩
  · simp only [List.getD_cons_zero, List.getD_cons_succ] at hn
    split_ifs at hn with hc
    injection hn with hn2
    exact ⟨x + 1, y, by omega, hy, hn2.symm, Or.inr (Or.inr (Or.inl ⟨rfl, hc, rfl, rfl⟩))⟩
  · simp only [List.getD_cons_zero, List.getD_cons_succ] at hn
    split_ifs at hn with hc
    injection hn with hn2
    exact ⟨x + 1, y + 1, by omega, by omega, hn2.symm,
      Or.inr (Or.inr (Or.inr (Or.inl ⟨rfl, hc, rfl, rfl⟩)))⟩
  · simp only [List.getD_cons_zero, List.getD_cons_succ] at hn
    split_ifs at hn with hc
    injection hn with hn2
    exact ⟨x - 1, y, by omega, hy, hn2.symm,
      Or.inr (Or.inr (Or.inr (Or.inr (Or.inl ⟨rfl, hc, rfl, rfl⟩))))⟩
  · simp only [List.getD_cons_zero, List.getD_cons_succ] at hn
    split_ifs at hn with hc
    injection hn with hn2
    exact ⟨x - 1, y + 1, by omega, by omega, hn2.symm,
      Or.inr (Or.inr (Or.inr (Or.inr (Or.inr ⟨rfl, hc, rfl, rfl⟩))))⟩

theorem hex_elim_even (w h x y i n : Nat) (hx : x < w) (hy : y < h) (hp : ¬ x % 2 = 1)
    (hn : (hexNeighbors w h x y).getD i none = some n) :
    ∃ tx ty, tx < w ∧ ty < h ∧ n = cell_index tx ty w ∧
      ((i = 0 ∧ 0 < y ∧ tx = x ∧ ty = y - 1) ∨
       (i = 1 ∧ y < h - 1 ∧ tx = x ∧ ty = y + 1) ∨
       (i = 2 ∧ (0 < y ∧ x < w - 1) ∧ tx = x + 1 ∧ ty = y - 1) ∨
       (i = 3 ∧ x < w - 1 ∧ tx = x + 1 ∧ ty = y) ∨
       (i = 4 ∧ (0 < y ∧ 0 < x) ∧ tx = x - 1 ∧ ty = y - 1) ∨
       (i = 5 ∧ 0 < x ∧ tx = x - 1 ∧ ty = y)) := by
  unfold hexNeighbors at hn
  rw [if_neg hp] at hn
  have hi : i < 6 := by
    by_contra hge
    rw [List.getD_eq_default _ _ (by simp; omega)] at hn
    exact Option.noConfusion hn
  interval_cases i
  · simp only [List.getD_cons_zero] at hn
    split_ifs at hn with hc
    injection hn with hn2
    exact ⟨x, y - 1, hx, by omega, hn2.symm, Or.inl ⟨rfl, hc, rfl, rfl⟩⟩
  · simp only [List.getD_cons_zero, List.getD_cons_succ] at hn
    split_ifs at hn with hc
    injection hn with hn2
    exact ⟨x, y + 1, hx, by omega, hn2.symm, Or.inr (Or.inl ⟨rfl, hc, rfl, rfl⟩)⟩
  · simp only [List.getD_cons_zero, List.getD_cons_succ] at hn
    split_ifs at hn with hc
    injection hn with hn2
    exact ⟨x + 1, y - 1, by omega, by omega, hn2.symm,
      Or.inr (Or.inr (Or.inl ⟨rfl, hc, rfl, rfl⟩))⟩
  · simp only [List.getD_cons_zero, List.getD_cons_succ] at hn
    split_ifs at hn with hc
    injection hn with hn2
    exact ⟨x + 1, y, by omega, hy, hn2.symm,
      Or.inr (Or.inr (Or.inr (Or.inl ⟨rfl, hc, rfl, rfl⟩)))⟩
  · simp only [List.getD_cons_zero, List.getD_cons_succ] at hn
    split_ifs at hn with hc
    injection hn with hn2
    exact ⟨x - 1, y - 1, by omega, by omega, hn2.symm,
      Or.inr (Or.inr (Or.inr (Or.inr (Or.inl ⟨rfl, hc, rfl, rfl⟩))))⟩
  · simp only [List.getD_cons_zero, List.getD_cons_succ] at hn
    split_ifs at hn with hc
    injection hn with hn2
    exact ⟨x - 1, y, by omega, hy, hn2.symm,
      Or.inr (Or.inr (Or.inr (Or.inr (Or.inr ⟨rfl, hc, rfl, rfl⟩))))⟩

theorem hex_symm (w h x y i n : Nat) (hx : x < w) (hy : y < h)
    (hn : (hexNeighbors w h x y).getD i none = some n) :
    ∃ j, (hexNeighbors w h (n % w) (n / w)).getD j none = some (cell_index x y w) := by
  by_cases hp : x % 2 = 1
  · obtain ⟨tx, ty, htx, hty, hne, hcase⟩ := hex_elim_odd w h x y i n hx hy hp hn
    subst hne
    rw [cell_index_mod _ _ _ htx, cell_index_div _ _ _ htx]
    unfold hexNeighbors
    rcases hcase with ⟨_, hc, hxx, hyy⟩ | ⟨_, hc, hxx, hyy⟩ | ⟨_, hc, hxx, hyy⟩ |
      ⟨_, hc, hxx, hyy⟩ | ⟨_, hc, hxx, hyy⟩ | ⟨_, hc, hxx, hyy⟩
    · refine ⟨1, ?_⟩
      rw [if_pos (show tx % 2 = 1 by omega)]
      simp only [List.getD_cons_zero, List.getD_cons_succ]
      rw [if_pos (show ty < h - 1 by omega)]
      congr 2 <;> omega
    · refine ⟨0, ?_⟩
      rw [if_pos (show tx % 2 = 1 by omega)]
      simp only [List.getD_cons_zero, List.getD_cons_succ]
      rw [if_pos (show ty > 0 by omega)]
      congr 2 <;> omega
    · refine ⟨5, ?_⟩
      rw [if_neg (show ¬ tx % 2 = 1 by omega)]
      simp only [List.getD_cons_zero, List.getD_cons_succ]
      rw [if_pos (show tx > 0 by omega)]
      congr 2 <;> omega
    · refine ⟨4, ?_⟩
      rw [if_neg (show ¬ tx % 2 = 1 by omega)]
      simp only [List.getD_cons_zero, List.getD_cons_succ]
      rw [if_pos (show ty > 0 ∧ tx > 0 by omega)]
      congr 2 <;> omega
    · refine ⟨3, ?_⟩
      rw [if_neg (show ¬ tx % 2 = 1 by omega)]
      simp only [List.getD_cons_zero, List.getD_cons_succ]
      rw [if_pos (show tx < w - 1 by omega)]
      congr 2 <;> omega
    · refine ⟨2, ?_⟩
      rw [if_neg (show ¬ tx % 2 = 1 by omega)]
      simp only [List.getD_cons_zero, List.getD_cons_succ]
      rw [if_pos (show ty > 0 ∧ tx < w - 1 by omega)]
      congr 2 <;> omega
  · obtain ⟨tx, ty, htx, hty, hne, hcase⟩ := hex_elim_even w h x y i n hx hy hp hn
    subst hne
    rw [cell_index_mod _ _ _ htx, cell_index_div _ _ _ htx]
    unfold hexNeighbors
    rcases hcase with ⟨_, hc, hxx, hyy⟩ | ⟨_, hc, hxx, hyy⟩ | ⟨_, hc, hxx, hyy⟩ |
      ⟨_, hc, hxx, hyy⟩ | ⟨_, hc, hxx, hyy⟩ | ⟨_, hc, hxx, hyy⟩
    · refine ⟨1, ?_⟩
      rw [if_neg (show ¬ tx % 2 = 1 by omega)]
      simp only [List.getD_cons_zero, List.getD_cons_succ]
      rw [if_pos (show ty < h - 1 by omega)]
      congr 2 <;> omega
    · refine ⟨0, ?_⟩
      rw [if_neg (show ¬ tx % 2 = 1 by omega)]
      simp only [List.getD_cons_zero, List.getD_cons_succ]
      rw [if_pos (show ty > 0 by omega)]
      congr 2 <;> omega
    · refine ⟨5, ?_⟩
      rw [if_pos (show tx % 2 = 1 by omega)]
      simp only [List.getD_cons_zero, List.getD_cons_succ]
      rw [if_pos (show ty < h - 1 ∧ tx > 0 by omega)]
      congr 2 <;> omega
    · refine ⟨4, ?_⟩
      rw [if_pos (show tx % 2 = 1 by omega)]
      simp only [List.getD_cons_zero, List.getD_cons_succ]
      rw [if_pos (show tx > 0 by omega)]
      congr 2 <;> omega
    · refine ⟨3, ?_⟩
      rw [if_pos (show tx % 2 = 1 by omega)]
      simp only [List.getD_cons_zero, List.getD_cons_succ]
      rw [if_pos (show ty < h - 1 ∧ tx < w - 1 by omega)]
      congr 2 <;> omega
    · refine ⟨2, ?_⟩
      rw [if_pos (show tx % 2 = 1 by omega)]
      simp only [List.getD_cons_zero, List.getD_cons_succ]
      rw [if_pos (show tx < w - 1 by omega)]
      congr 2 <;> omega

theorem oct_elim_oct (w h x y i n : Nat) (hx : x < w) (hy : y < h)
    (hp : (x + y) % 2 = 0)
    (hn : (octNeighbors w h x y).getD i none = some n) :
    ∃ tx ty, tx < w ∧ ty < h ∧ n = cell_index tx ty w ∧
      ((i = 0 ∧ 0 < y ∧ tx = x ∧ ty = y - 1) ∨
       (i = 1 ∧ y < h - 1 ∧ tx = x ∧ ty = y + 1) ∨
       (i = 2 ∧ x < w - 1 ∧ tx = x + 1 ∧ ty = y) ∨
       (i = 3 ∧ 0 < x ∧ tx = x - 1 ∧ ty = y) ∨
       (i = 4 ∧ (x < w - 1 ∧ 0 < y) ∧ tx = x + 1 ∧ ty = y - 1) ∨
       (i = 5 ∧ (x < w - 1 ∧ y < h - 1) ∧ tx = x + 1 ∧ ty = y + 1) ∨
       (i = 6 ∧ (0 < x ∧ 0 < y) ∧ tx = x - 1 ∧ ty = y - 1) ∨
       (i = 7 ∧ (0 < x ∧ y < h - 1) ∧ tx = x - 1 ∧ ty = y + 1)) := by
  unfold octNeighbors at hn
  rw [if_pos (show is_octagon x y = true by simp [is_octagon]; omega)] at hn
  have hi : i < 8 := by
    by_contra hge
    rw [List.getD_eq_default _ _ (by simp; omega)] at hn
    exact Option.noConfusion hn
  interval_cases i
  · simp only [List.getD_cons_zero] at hn
    split_ifs at hn with hc
    injection hn with hn2
    exact ⟨x, y - 1, hx, by omega, hn2.symm, Or.inl ⟨rfl, hc, rfl, rfl⟩⟩
  · simp only [List.getD_cons_zero, List.getD_cons_succ] at hn
    split_ifs at hn with hc
    injection hn with hn2
    exact ⟨x, y + 1, hx, by omega, hn2.symm, Or.inr (Or.inl ⟨rfl, hc, rfl, rfl⟩)⟩
  · simp only [List.getD_cons_zero, List.getD_cons_succ] at hn
    split_ifs at hn with hc
    injection hn with hn2
    exact ⟨x + 1, y, by omega, hy, hn2.symm, Or.inr (Or.inr (Or.inl ⟨rfl, hc, rfl, rfl⟩))⟩
  · simp only [List.getD_cons_zero, List.getD_cons_succ] at hn
    split_ifs at hn with hc
    injection hn with hn2
    exact ⟨x - 1, y, by omega, hy, hn2.symm,
      Or.inr (Or.inr (Or.inr (Or.inl ⟨rfl, hc, rfl, rfl⟩)))⟩
  · simp only [List.getD_cons_zero, List.getD_cons_succ] at hn
    split_ifs at hn with hc
    injection hn with hn2
    exact ⟨x + 1, y - 1, by omega, by omega, hn2.symm,
      Or.inr (Or.inr (Or.inr (Or.inr (Or.inl ⟨rfl, hc, rfl, rfl⟩))))⟩
  · simp only [List.getD_cons_zero, List.getD_cons_succ] at hn
    split_ifs at hn with hc
    injection hn with hn2
    exact ⟨x + 1, y + 1, by omega, by omega, hn2.symm,
      Or.inr (Or.inr (Or.inr (Or.inr (Or.inr (Or.inl ⟨rfl, hc, rfl, rfl⟩)))))⟩
  · simp only [List.getD_cons_zero, List.getD_cons_succ] at hn
    split_ifs at hn with hc
    injection hn with hn2
    exact ⟨x - 1, y - 1, by omega, by omega, hn2.symm,
      Or.inr (Or.inr (Or.inr (Or.inr (Or.inr (Or.inr (Or.inl ⟨rfl, hc, rfl, rfl⟩))))))⟩
  · simp only [List.getD_cons_zero, List.getD_cons_succ] at hn
    split_ifs at hn with hc
    injection hn with hn2
    exact ⟨x - 1, y + 1, by omega, by omega, hn2.symm,
      Or.inr (Or.inr (Or.inr (Or.inr (Or.inr (Or.inr (Or.inr ⟨rfl, hc, rfl, rfl⟩))))))⟩

theorem oct_elim_sq (w h x y i n : Nat) (hx : x < w) (hy : y < h)
    (hp : ¬ (x + y) % 2 = 0)
    (hn : (octNeighbors w h x y).getD i none = some n) :
    ∃ tx ty, tx < w ∧ ty < h ∧ n = cell_index tx ty w ∧
      ((i = 0 ∧ 0 < y ∧ tx = x ∧ ty = y - 1) ∨
       (i = 1 ∧ y < h - 1 ∧ tx = x ∧ ty = y + 1) ∨
       (i = 2 ∧ x < w - 1 ∧ tx = x + 1 ∧ ty = y) ∨
       (i = 3 ∧ 0 < x ∧ tx = x - 1 ∧ ty = y)) := by
  unfold octNeighbors at hn
  rw [if_neg (show ¬ is_octagon x y = true by simp [is_octagon]; omega)] at hn
  have hi : i < 8 := by
    by_contra hge
    rw [List.getD_eq_default _ _ (by simp; omega)] at hn
    exact Option.noConfusion hn
  interval_cases i
  · simp only [List.getD_cons_zero] at hn
    split_ifs at hn with hc
    injection hn with hn2
    exact ⟨x, y - 1, hx, by omega, hn2.symm, Or.inl ⟨rfl, hc, rfl, rfl⟩⟩
  · simp only [List.getD_cons_zero, List.getD_cons_succ] at hn
    split_ifs at hn with hc
    injection hn with hn2
    exact ⟨x, y + 1, hx, by omega, hn2.symm, Or.inr (Or.inl ⟨rfl, hc, rfl, rfl⟩)⟩
  · simp only [List.getD_cons_zero, List.getD_cons_succ] at hn
    split_ifs at hn with hc
    injection hn with hn2
    exact ⟨x + 1, y, by omega, hy, hn2.symm, Or.inr (Or.inr (Or.inl ⟨rfl, hc, rfl, rfl⟩))⟩
  · simp only [List.getD_cons_zero, List.getD_cons_succ] at hn
    split_ifs at hn with hc
    injection hn with hn2
    exact ⟨x - 1, y, by omega, hy, hn2.symm,
      Or.inr (Or.inr (Or.inr ⟨rfl, hc, rfl, rfl⟩))⟩
  · simp only [List.getD_cons_zero, List.getD_cons_succ] at hn
    exact Option.noConfusion hn
  · simp only [List.getD_cons_zero, List.getD_cons_succ] at hn
    exact Option.noConfusion hn
  · simp only [List.getD_cons_zero, List.getD_cons_succ] at hn
    exact Option.noConfusion hn
  · simp only [List.getD_cons_zero, List.getD_cons_succ] at hn
    exact Option.noConfusion hn

theorem oct_symm (w h x y i n : Nat) (hx : x < w) (hy : y < h)
    (hn : (octNeighbors w h x y).getD i none = some n) :
    ∃ j, (octNeighbors w h (n % w) (n / w)).getD j none = some (cell_index x y w) := by
  by_cases hp : (x + y) % 2 = 0
  · obtain ⟨tx, ty, htx, hty, hne, hcase⟩ := oct_elim_oct w h x y i n hx hy hp hn
    subst hne
    rw [cell_index_mod _ _ _ htx, cell_index_div _ _ _ htx]
    unfold octNeighbors
    rcases hcase with ⟨_, hc, hxx, hyy⟩ | ⟨_, hc, hxx, hyy⟩ | ⟨_, hc, hxx, hyy⟩ |
      ⟨_, hc, hxx, hyy⟩ | ⟨_, hc, hxx, hyy⟩ | ⟨_, hc, hxx, hyy⟩ |
      ⟨_, hc, hxx, hyy⟩ | ⟨_, hc, hxx, hyy⟩
    · refine ⟨1, ?_⟩
      rw [if_neg (show ¬ is_octagon tx ty = true by simp [is_octagon]; omega)]
      simp only [List.getD_cons_zero, List.getD_cons_succ]
      rw [if_pos (show ty < h - 1 by omega)]
      congr 2 <;> omega
    · refine ⟨0, ?_⟩
      rw [if_neg (show ¬ is_octagon tx ty = true by simp [is_octagon]; omega)]
      simp only [List.getD_cons_zero, List.getD_cons_succ]
      rw [if_pos (show ty > 0 by omega)]
      congr 2 <;> omega
    · refine ⟨3, ?_⟩
      rw [if_neg (show ¬ is_octagon tx ty = true by simp [is_octagon]; omega)]
      simp only [List.getD_cons_zero, List.getD_cons_succ]
      rw [if_pos (show tx > 0 by omega)]
      congr 2 <;> omega
    · refine ⟨2, ?_⟩
      rw [if_neg (show ¬ is_octagon tx ty = true by simp [is_octagon]; omega)]
      simp only [List.getD_cons_zero, List.getD_cons_succ]
      rw [if_pos (show tx < w - 1 by omega)]
      congr 2 <;> omega
    · refine ⟨7, ?_⟩
      rw [if_pos (show is_octagon tx ty = true by simp [is_octagon]; omega)]
      simp only [List.getD_cons_zero, List.getD_cons_succ]
      rw [if_pos (show tx > 0 ∧ ty < h - 1 by omega)]
      congr 2 <;> omega
    · refine ⟨6, ?_⟩
      rw [if_pos (show is_octagon tx ty = true by simp [is_octagon]; omega)]
      simp only [List.getD_cons_zero, List.getD_cons_succ]
      rw [if_pos (show tx > 0 ∧ ty > 0 by omega)]
      congr 2 <;> omega
    · refine ⟨5, ?_⟩
      rw [if_pos (show is_octagon tx ty = true by simp [is_octagon]; omega)]
      simp only [List.getD_cons_zero, List.getD_cons_succ]
      rw [if_pos (show tx < w - 1 ∧ ty < h - 1 by omega)]
      congr 2 <;> omega
    · refine ⟨4, ?_⟩
      rw [if_pos (show is_octagon tx ty = true by simp [is_octagon]; omega)]
      simp only [List.getD_cons_zero, List.getD_cons_succ]
      rw [if_pos (show tx < w - 1 ∧ ty > 0 by omega)]
      congr 2 <;> omega
  · obtain ⟨tx, ty, htx, hty, hne, hcase⟩ := oct_elim_sq w h x y i n hx hy hp hn
    subst hne
    rw [cell_index_mod _ _ _ htx, cell_index_div _ _ _ htx]
    unfold octNeighbors
    rcases hcase with ⟨_, hc, hxx, hyy⟩ | ⟨_, hc, hxx, hyy⟩ | ⟨_, hc, hxx, hyy⟩ |
      ⟨_, hc, hxx, hyy⟩
    · refine ⟨1, ?_⟩
      rw [if_pos (show is_octagon tx ty = true by simp [is_octagon]; omega)]
      simp only [List.getD_cons_zero, List.getD_cons_succ]
      rw [if_pos (show ty < h - 1 by omega)]
      congr 2 <;> omega
    · refine ⟨0, ?_⟩
      rw [if_pos (show is_octagon tx ty = true by simp [is_octagon]; omega)]
      simp only [List.getD_cons_zero, List.getD_cons_succ]
      rw [if_pos (show ty > 0 by omega)]
      congr 2 <;> omega
    · refine ⟨3, ?_⟩
      rw [if_pos (show is_octagon tx ty = true by simp [is_octagon]; omega)]
      simp only [List.getD_cons_zero, List.getD_cons_succ]
      rw [if_pos (show tx > 0 by omega)]
      congr 2 <;> omega
    · refine ⟨2, ?_⟩
      rw [if_pos (show is_octagon tx ty = true by simp [is_octagon]; omega)]
      simp only [List.getD_cons_zero, List.getD_cons_succ]
      rw [if_pos (show tx < w - 1 by omega)]
      congr 2 <;> omega

theorem shapeNeighbors_length (g : GridType) (w h x y : Nat) :
    (shapeNeighbors g w h x y).length = shapeNumNeighbors g := by
  cases g <;>
    simp only [shapeNeighbors, shapeNumNeighbors, rectNeighbors, triNeighbors,
      hexNeighbors, octNeighbors] <;>
    split_ifs <;>
    rfl

theorem shape_elim (g : GridType) (w h x y i n : Nat) (hx : x < w) (hy : y < h)
    (hn : (shapeNeighbors g w h x y).getD i none = some n) :
    ∃ tx ty, tx < w ∧ ty < h ∧ n = cell_index tx ty w ∧ ¬ (tx = x ∧ ty = y) := by
  cases g
  case rectangular =>
    obtain ⟨tx, ty, htx, hty, hne, hc⟩ := rect_elim w h x y i n hx hy hn
    exact ⟨tx, ty, htx, hty, hne, by omega⟩
  case triangular =>
    obtain ⟨tx, ty, htx, hty, hne, hc⟩ := tri_elim w h x y i n hx hy hn
    exact ⟨tx, ty, htx, hty, hne, by omega⟩
  case hexagonal =>
    by_cases hp : x % 2 = 1
    · obtain ⟨tx, ty, htx, hty, hne, hc⟩ := hex_elim_odd w h x y i n hx hy hp hn
      exact ⟨tx, ty, htx, hty, hne, by omega⟩
    · obtain ⟨tx, ty, htx, hty, hne, hc⟩ := hex_elim_even w h x y i n hx hy hp hn
      exact ⟨tx, ty, htx, hty, hne, by omega⟩
  case octagonal =>
    by_cases hp : (x + y) % 2 = 0
    · obtain ⟨tx, ty, htx, hty, hne, hc⟩ := oct_elim_oct w h x y i n hx hy hp hn
      exact ⟨tx, ty, htx, hty, hne, by omega⟩
    · obtain ⟨tx, ty, htx, hty, hne, hc⟩ := oct_elim_sq w h x y i n hx hy hp hn
      exact ⟨tx, ty, htx, hty, hne, by omega⟩

theorem shape_symm (g : GridType) (w h x y i n : Nat) (hx : x < w) (hy : y < h)
    (hn : (shapeNeighbors g w h x y).getD i none = some n) :
    ∃ j, (shapeNeighbors g w h (n % w) (n / w)).getD j none = some (cell_index x y w) := by
  cases g
  case rectangular => exact rect_symm w h x y i n hx hy hn
  case triangular => exact tri_symm w h x y i n hx hy hn
  case hexagonal => exact hex_symm w h x y i n hx hy hn
  case octagonal => exact oct_symm w h x y i n hx hy hn

theorem shape_uniq (g : GridType) (w h x y i j n : Nat) (hx : x < w) (hy : y < h)
    (hn1 : (shapeNeighbors g w h x y).getD i none = some n)
    (hn2 : (shapeNeighbors g w h x y).getD j none = some n) : i = j := by
  cases g
  case rectangular =>
    obtain ⟨tx, ty, htx, hty, hne, hc1⟩ := rect_elim w h x y i n hx hy hn1
    obtain ⟨tx2, ty2, htx2, hty2, hne2, hc2⟩ := rect_elim w h x y j n hx hy hn2
    obtain ⟨hxe, hye⟩ := cell_index_inj tx ty tx2 ty2 w htx htx2 (hne.symm.trans hne2)
    omega
  case triangular =>
    obtain ⟨tx, ty, htx, hty, hne, hc1⟩ := tri_elim w h x y i n hx hy hn1
    obtain ⟨tx2, ty2, htx2, hty2, hne2, hc2⟩ := tri_elim w h x y j n hx hy hn2
    obtain ⟨hxe, hye⟩ := cell_index_inj tx ty tx2 ty2 w htx htx2 (hne.symm.trans hne2)
    omega
  case hexagonal =>
    by_cases hp : x % 2 = 1
    · obtain ⟨tx, ty, htx, hty, hne, hc1⟩ := hex_elim_odd w h x y i n hx hy hp hn1
      obtain ⟨tx2, ty2, htx2, hty2, hne2, hc2⟩ := hex_elim_odd w h x y j n hx hy hp hn2
      obtain ⟨hxe, hye⟩ := cell_index_inj tx ty tx2 ty2 w htx htx2 (hne.symm.trans hne2)
      omega
    · obtain ⟨tx, ty, htx, hty, hne, hc1⟩ := hex_elim_even w h x y i n hx hy hp hn1
      obtain ⟨tx2, ty2, htx2, hty2, hne2, hc2⟩ := hex_elim_even w h x y j n hx hy hp hn2
      obtain ⟨hxe, hye⟩ := cell_index_inj tx ty tx2 ty2 w htx htx2 (hne.symm.trans hne2)
      omega
  case octagonal =>
    by_cases hp : (x + y) % 2 = 0
    · obtain ⟨tx, ty, htx, hty, hne, hc1⟩ := oct_elim_oct w h x y i n hx hy hp hn1
      obtain ⟨tx2, ty2, htx2, hty2, hne2, hc2⟩ := oct_elim_oct w h x y j n hx hy hp hn2
      obtain ⟨hxe, hye⟩ := cell_index_inj tx ty tx2 ty2 w htx htx2 (hne.symm.trans hne2)
      omega
    · obtain ⟨tx, ty, htx, hty, hne, hc1⟩ := oct_elim_sq w h x y i n hx hy hp hn1
      obtain ⟨tx2, ty2, htx2, hty2, hne2, hc2⟩ := oct_elim_sq w h x y j n hx hy hp hn2
      obtain ⟨hxe, hye⟩ := cell_index_inj tx ty tx2 ty2 w htx htx2 (hne.symm.trans hne2)
      omega

theorem coords_lt (w h c : Nat) (hw : 1 ≤ w) (hc : c < w * h) :
    c % w < w ∧ c / w < h := by
  constructor
  · exact Nat.mod_lt c (by omega)
  · have hc2 : c < h * w := by
      rw [Nat.mul_comm h w]
      exact hc
    exact (Nat.div_lt_iff_lt_mul (by omega)).mpr hc2

theorem cell_index_coords (w c : Nat) : cell_index (c % w) (c / w) w = c := by
  unfold cell_index
  rw [Nat.mul_comm]
  exact Nat.div_add_mod c w

theorem new_WF (g : GridType) (w h : Nat) (hw : 1 ≤ w) (hh : 1 ≤ h) :
    CellsWF (GenericMaze.new g w h).cells := by
  have hlen := new_cells_length g w h
  have hget : ∀ c, c < w * h →
      getCell (GenericMaze.new g w h).cells c =
        { neighbors := shapeNeighbors g w h (c % w) (c / w),
          walls := List.replicate (shapeNumNeighbors g) true } := by
    intro c hc
    rw [getCell_new, if_pos hc]
  have hgetGe : ∀ c, ¬ c < w * h → getCell (GenericMaze.new g w h).cells c = defaultCell := by
    intro c hc
    rw [getCell_new, if_neg hc]
  constructor
  · intro c i n hn
    by_cases hc : c < w * h
    · rw [hget c hc] at hn
      obtain ⟨hxlt, hylt⟩ := coords_lt w h c hw hc
      obtain ⟨tx, ty, htx, hty, hne, _⟩ := shape_elim g w h _ _ i n hxlt hylt hn
      rw [hlen, hne]
      exact cell_index_lt tx ty w h htx hty
    · rw [hgetGe c hc] at hn
      exact Option.noConfusion hn
  · intro c i n hn
    by_cases hc : c < w * h
    · rw [hget c hc] at hn
      obtain ⟨hxlt, hylt⟩ := coords_lt w h c hw hc
      obtain ⟨tx, ty, htx, hty, hne, hnc⟩ := shape_elim g w h _ _ i n hxlt hylt hn
      intro hcontra
      apply hnc
      apply cell_index_inj tx ty (c % w) (c / w) w htx hxlt
      rw [← hne, hcontra, cell_index_coords]
    · rw [hgetGe c hc] at hn
      exact Option.noConfusion hn
  · intro c i j n hn1 hn2
    by_cases hc : c < w * h
    · rw [hget c hc] at hn1 hn2
      obtain ⟨hxlt, hylt⟩ := coords_lt w h c hw hc
      exact shape_uniq g w h _ _ i j n hxlt hylt hn1 hn2
    · rw [hgetGe c hc] at hn1
      exact Option.noConfusion hn1
  · intro c i n hn
    by_cases hc : c < w * h
    · rw [hget c hc] at hn
      obtain ⟨hxlt, hylt⟩ := coords_lt w h c hw hc
      obtain ⟨tx, ty, htx, hty, hne, _⟩ := shape_elim g w h _ _ i n hxlt hylt hn
      have hnlt : n < w * h := hne ▸ cell_index_lt tx ty w h htx hty
      obtain ⟨j, hj⟩ := shape_symm g w h _ _ i n hxlt hylt hn
      refine ⟨j, ?_⟩
      rw [hget n hnlt]
      rw [hj, cell_index_coords]
    · rw [hgetGe c hc] at hn
      exact Option.noConfusion hn
  · intro c
    by_cases hc : c < w * h
    · rw [hget c hc]
      simp [shapeNeighbors_length]
    · rw [hgetGe c hc]
      rfl

/-! ## C3: fresh grids have all walls and a symmetric neighbor relation -/

/-- C3: for every topology and all `width, height ≥ 1`, immediately after
`GenericMaze::new` every cell's wall sequence is all `true`, and the
neighbor relation is symmetric: whenever a slot of cell `c` holds `Some n`,
some slot of cell `n` holds `Some c`. -/
theorem new_walls_true_and_symmetric (g : GridType) (w h : Nat)
    (hw : 1 ≤ w) (hh : 1 ≤ h) :
    (∀ c, c < w * h →
      (getCell (GenericMaze.new g w h).cells c).walls
        = List.replicate (shapeNumNeighbors g) true)
    ∧ ∀ c i n, (getCell (GenericMaze.new g w h).cells c).neighbors.getD i none = some n →
        ∃ j, (getCell (GenericMaze.new g w h).cells n).neighbors.getD j none = some c := by
  constructor
  · intro c hc
    rw [getCell_new, if_pos hc]
  · exact (new_WF g w h hw hh).symm

/-- Witness for `new_walls_true_and_symmetric` on the 2×2 hexagonal grid. -/
theorem new_walls_true_and_symmetric_witness :
    (∀ c, c < 2 * 2 →
      (getCell (GenericMaze.new .hexagonal 2 2).cells c).walls
        = List.replicate (shapeNumNeighbors .hexagonal) true)
    ∧ ∀ c i n,
        (getCell (GenericMaze.new .hexagonal 2 2).cells c).neighbors.getD i none = some n →
        ∃ j, (getCell (GenericMaze.new .hexagonal 2 2).cells n).neighbors.getD j none
          = some c :=
  new_walls_true_and_symmetric .hexagonal 2 2 (by decide) (by decide)

/-! ## List helper lemmas -/

theorem getD_lt_of_ne_default (l : List Bool) (v : Nat) (h : l.getD v false = true) :
    v < l.length := by
  by_contra hge
  rw [List.getD_eq_default _ _ (by omega)] at h
  exact Bool.noConfusion h

theorem getD_lt_of_false (l : List Bool) (v : Nat) (h : l.getD v true = false) :
    v < l.length := by
  by_contra hge
  rw [List.getD_eq_default _ _ (by omega)] at h
  exact Bool.noConfusion h

theorem getD_bool_congr (l : List Bool) (v : Nat) (d1 d2 : Bool) (h : v < l.length) :
    l.getD v d1 = l.getD v d2 := by
  rw [List.getD_eq_getElem _ _ h, List.getD_eq_getElem _ _ h]

theorem getD_true_of_false_default (l : List Bool) (v : Nat)
    (h : l.getD v false = true) : l.getD v true = true := by
  have hlt := getD_lt_of_ne_default l v h
  rw [getD_bool_congr l v true false hlt]
  exact h

theorem getD_false_default_of_false (l : List Bool) (v : Nat)
    (h : l.getD v true = false) : l.getD v false = false := by
  have hlt := getD_lt_of_false l v h
  rw [getD_bool_congr l v false true hlt]
  exact h

theorem getD_set_bool (l : List Bool) (n v : Nat) (a : Bool) (d : Bool) :
    (l.set n a).getD v d = if n = v ∧ n < l.length then a else l.getD v d := by
  rw [List.getD_eq_getElem?_getD, List.getD_eq_getElem?_getD, List.getElem?_set]
  by_cases h1 : n = v
  · subst h1
    by_cases h2 : n < l.length
    · simp [h2]
    · have hnone : l[n]? = none := List.getElem?_eq_none (by omega)
      simp [h2, hnone]
  · simp [h1]

theorem count_set_true (l : List Bool) (n : Nat) (h : l.getD n true = false) :
    (l.set n true).count true = l.count true + 1
    ∧ (l.set n true).count false + 1 = l.count false := by
  induction l generalizing n with
  | nil =>
    rw [List.getD_eq_default _ _ (by simp)] at h
    exact Bool.noConfusion h
  | cons a t ih =>
    cases n with
    | zero =>
      simp only [List.getD_cons_zero] at h
      subst h
      simp [List.count_cons]
    | succ m =>
      simp only [List.getD_cons_succ] at h
      have := ih m h
      simp only [List.set_cons_succ, List.count_cons]
      constructor <;> (rcases this with ⟨h1, h2⟩; omega)

theorem replicate_false_getD (n v : Nat) : (List.replicate n false).getD v false = false := by
  by_cases h : v < n
  · rw [List.getD_eq_getElem _ _ (by simpa using h)]
    simp
  · rw [List.getD_eq_default _ _ (by simpa using Nat.le_of_not_lt h)]

theorem init_visited_getD (n v : Nat) (hn : 1 ≤ n) :
    ((List.replicate n false).set 0 true).getD v false = true ↔ v = 0 := by
  rw [getD_set_bool]
  constructor
  · intro h
    split_ifs at h with hc
    · omega
    · rw [replicate_false_getD] at h
      exact Bool.noConfusion h
  · intro h
    subst h
    rw [if_pos (by simp; omega)]

theorem init_visited_count (n : Nat) (hn : 1 ≤ n) :
    ((List.replicate n false).set 0 true).count true = 1 := by
  cases n with
  | zero => omega
  | succ m =>
    simp [List.replicate_succ, List.count_cons, List.count_replicate]

/-! ## Lemmas about `setWall`, `unvisitedNeighbors`, `findRev` -/

theorem setWall_length (cells : List MazeCell) (c i : Nat) :
    (setWall cells c i).length = cells.length := by
  unfold setWall
  exact List.length_set cells c _

theorem getCell_setWall (cells : List MazeCell) (c i a : Nat) :
    getCell (setWall cells c i) a =
      if c = a ∧ c < cells.length then
        { getCell cells c with walls := (getCell cells c).walls.set i false }
      else getCell cells a := by
  have hstep : getCell (setWall cells c i) a =
      (cells.set c { getCell cells c with
        walls := (getCell cells c).walls.set i false }).getD a defaultCell := rfl
  rw [hstep, List.getD_eq_getElem?_getD, List.getElem?_set]
  by_cases h1 : c = a
  · subst h1
    by_cases h2 : c < cells.length
    · rw [if_pos rfl, if_pos h2, if_pos ⟨rfl, h2⟩]
      rfl
    · rw [if_pos rfl, if_neg h2, if_neg (by tauto)]
      rw [getCell_ge cells c (by omega)]
      rfl
  · rw [if_neg h1, if_neg (by tauto), ← List.getD_eq_getElem?_getD]
    rfl

theorem setWall_neighbors (cells : List MazeCell) (c i a : Nat) :
    (getCell (setWall cells c i) a).neighbors = (getCell cells a).neighbors := by
  rw [getCell_setWall]
  split_ifs with hc
  · rcases hc with ⟨he, _⟩
    subst he
    rfl
  · rfl

theorem setWall_wallsLen (cells : List MazeCell) (c i a : Nat) :
    (getCell (setWall cells c i) a).walls.length = (getCell cells a).walls.length := by
  rw [getCell_setWall]
  split_ifs with hc
  · rcases hc with ⟨he, _⟩
    subst he
    simp
  · rfl

theorem mem_unvisitedNeighbors (cell : MazeCell) (visited : List Bool) (p : Nat × Nat) :
    p ∈ unvisitedNeighbors cell visited ↔
      cell.neighbors.getD p.2 none = some p.1 ∧ visited.getD p.1 true = false := by
  unfold unvisitedNeighbors
  rw [List.mem_filterMap]
  constructor
  · rintro ⟨a, _, hfa⟩
    rcases hs : cell.neighbors.getD a none with _ | n
    · rw [hs] at hfa
      exact Option.noConfusion hfa
    · rw [hs] at hfa
      replace hfa : (if visited.getD n true = true then none else some (n, a)) = some p := hfa
      by_cases hv : visited.getD n true = true
      · rw [if_pos hv] at hfa
        exact Option.noConfusion hfa
      · rw [if_neg hv] at hfa
        injection hfa with hp
        subst hp
        exact ⟨hs, by simpa using hv⟩
  · rintro ⟨hs, hv⟩
    refine ⟨p.2, List.mem_range.mpr ?_, ?_⟩
    · by_contra hge
      rw [List.getD_eq_default _ _ (by omega)] at hs
      exact Option.noConfusion hs
    · rw [hs]
      show (if visited.getD p.1 true = true then none else some (p.1, p.2)) = some p
      rw [if_neg (by rw [hv]; simp)]

theorem unvisitedNeighbors_nil_iff (cell : MazeCell) (visited : List Bool) :
    unvisitedNeighbors cell visited = [] ↔
      ∀ i n, cell.neighbors.getD i none = some n → visited.getD n true = true := by
  constructor
  · intro hnil i n hs
    by_contra hv
    have hmem : (n, i) ∈ unvisitedNeighbors cell visited := by
      rw [mem_unvisitedNeighbors]
      exact ⟨hs, by simpa using Bool.eq_false_iff.mpr (by simpa using hv)⟩
    rw [hnil] at hmem
    exact List.not_mem_nil _ hmem
  · intro hall
    unfold unvisitedNeighbors
    rw [List.filterMap_eq_nil_iff]
    intro a _
    rcases hs : cell.neighbors.getD a none with _ | n
    · rfl
    · show (if visited.getD n true = true then none else some (n, a)) = none
      rw [if_pos (hall a n hs)]

theorem pick_mem_unvisited (u : List (Nat × Nat)) (r : Nat) (hu : ¬ u = []) :
    u.getD (r % u.length) (0, 0) ∈ u := by
  have hlen : 0 < u.length := List.length_pos.mpr hu
  have hlt : r % u.length < u.length := Nat.mod_lt r hlen
  rw [List.getD_eq_getElem _ _ hlt]
  exact List.getElem_mem hlt

theorem findRev_spec (cell : MazeCell) (current j : Nat)
    (h : findRev cell current = some j) :
    cell.neighbors.getD j none = some current := by
  have := List.find?_some h
  simpa using this

theorem findRev_exists (cell : MazeCell) (current : Nat)
    (h : ∃ j, cell.neighbors.getD j none = some current) :
    ∃ j, findRev cell current = some j := by
  obtain ⟨j, hj⟩ := h
  have hjlt : j < cell.neighbors.length := by
    by_contra hge
    rw [List.getD_eq_default _ _ (by omega)] at hj
    exact Option.noConfusion hj
  have : (findRev cell current).isSome := by
    unfold findRev
    rw [List.find?_isSome]
    exact ⟨j, List.mem_range.mpr hjlt, by simpa using hj⟩
  exact Option.isSome_iff_exists.mp this

/-! ## Generator invariant preservation -/

theorem genStep_pop (r : Nat) (s : GenState) (current : Nat) (rest : List Nat)
    (h : unvisitedNeighbors (getCell s.cells current) s.visited = []) :
    genStep r s current rest = { s with stack := rest } := by
  unfold genStep
  rw [if_pos (by rw [h]; rfl)]

theorem genStep_push (r : Nat) (s : GenState) (current : Nat) (rest : List Nat)
    (rev : Nat)
    (h : ¬ unvisitedNeighbors (getCell s.cells current) s.visited = [])
    (hrev : findRev
      (getCell (setWall s.cells current
        ((unvisitedNeighbors (getCell s.cells current) s.visited).getD
          (r % (unvisitedNeighbors (getCell s.cells current) s.visited).length) (0, 0)).2)
        ((unvisitedNeighbors (getCell s.cells current) s.visited).getD
          (r % (unvisitedNeighbors (getCell s.cells current) s.visited).length) (0, 0)).1)
      current = some rev) :
    genStep r s current rest =
      { cells := setWall (setWall s.cells current
          ((unvisitedNeighbors (getCell s.cells current) s.visited).getD
            (r % (unvisitedNeighbors (getCell s.cells current) s.visited).length) (0, 0)).2)
          ((unvisitedNeighbors (getCell s.cells current) s.visited).getD
            (r % (unvisitedNeighbors (getCell s.cells current) s.visited).length) (0, 0)).1
          rev,
        visited := s.visited.set
          ((unvisitedNeighbors (getCell s.cells current) s.visited).getD
            (r % (unvisitedNeighbors (getCell s.cells current) s.visited).length) (0, 0)).1
          true,
        stack := ((unvisitedNeighbors (getCell s.cells current) s.visited).getD
            (r % (unvisitedNeighbors (getCell s.cells current) s.visited).length) (0, 0)).1
          :: current :: rest } := by
  unfold genStep
  rw [if_neg (by rw [List.isEmpty_iff]; exact h)]
  simp only [hrev]

theorem getD_opt_lt (l : List (Option Nat)) (i n : Nat) (h : l.getD i none = some n) :
    i < l.length := by
  by_contra hge
  rw [List.getD_eq_default _ _ (by omega)] at h
  exact Option.noConfusion h

theorem genInv_pop (cells0 : List MazeCell) (hWF : CellsWF cells0) (s : GenState)
    (T : List (Nat × Nat)) (hinv : GenInv cells0 s T) (current : Nat) (rest : List Nat)
    (hstack : s.stack = current :: rest)
    (hu : unvisitedNeighbors (getCell s.cells current) s.visited = []) :
    GenInv cells0 { s with stack := rest } T := by
  have hsub : ∀ v, v ∈ rest → v ∈ s.stack := by
    intro v hv
    rw [hstack]
    exact List.mem_cons_of_mem _ hv
  have hnodup : (current :: rest).Nodup := hstack ▸ hinv.stackNodup
  constructor
  case lenCells => exact hinv.lenCells
  case nbrs => exact hinv.nbrs
  case wallsLen => exact hinv.wallsLen
  case visLen => exact hinv.visLen
  case vis0 => exact hinv.vis0
  case stackVis =>
    intro v hv
    exact hinv.stackVis v (hsub v hv)
  case stackNodup => exact hnodup.of_cons
  case visReach => exact hinv.visReach
  case popped =>
    intro v hvis hnotin i n hslot
    by_cases hvc : v = current
    · subst hvc
      have hall := (unvisitedNeighbors_nil_iff _ _).mp hu
      have hslot_s : (getCell s.cells v).neighbors.getD i none = some n := by
        rw [hinv.nbrs]
        exact hslot
      have htrue := hall i n hslot_s
      have hlt : n < cells0.length := hWF.inBounds v i n hslot
      rw [getD_bool_congr _ _ false true (hinv.visLen ▸ hlt)]
      exact htrue
    · have hnotin2 : v ∉ s.stack := by
        rw [hstack]
        intro hmem
        rcases List.mem_cons.mp hmem with he | hm
        · exact hvc he
        · exact hnotin hm
      exact hinv.popped v hvis hnotin2 i n hslot
  case Tmem => exact hinv.Tmem
  case TsndNodup => exact hinv.TsndNodup
  case TsndChar => exact hinv.TsndChar
  case Tprog => exact hinv.Tprog
  case wallChar => exact hinv.wallChar
  case countT => exact hinv.countT

theorem genInv_push (cells0 : List MazeCell) (hWF : CellsWF cells0) (s : GenState)
    (T : List (Nat × Nat)) (hinv : GenInv cells0 s T) (current : Nat) (rest : List Nat)
    (hstack : s.stack = current :: rest) (next edge rev : Nat)
    (hslot_s : (getCell s.cells current).neighbors.getD edge none = some next)
    (hunvis : s.visited.getD next true = false)
    (hrev0 : (getCell cells0 next).neighbors.getD rev none = some current) :
    GenInv cells0
      { cells := setWall (setWall s.cells current edge) next rev,
        visited := s.visited.set next true,
        stack := next :: current :: rest }
      (T ++ [(current, next)]) := by
  have hslot0 : (getCell cells0 current).neighbors.getD edge none = some next := by
    rw [← hinv.nbrs]
    exact hslot_s
  have hnext_ltN : next < cells0.length := hWF.inBounds current edge next hslot0
  have hcur_ltN : current < cells0.length := hWF.inBounds next rev current hrev0
  have hnext_unvisF : s.visited.getD next false = false :=
    getD_false_default_of_false _ _ hunvis
  have hcur_stack : current ∈ s.stack := by
    rw [hstack]
    exact List.mem_cons_self current rest
  have hcur_vis : s.visited.getD current false = true := hinv.stackVis current hcur_stack
  have hne : next ≠ current := hWF.irrefl current edge next hslot0
  have hnext_ne0 : next ≠ 0 := by
    intro he
    have hv0 := hinv.vis0
    rw [← he, hnext_unvisF] at hv0
    exact Bool.noConfusion hv0
  have hnext_nstack : next ∉ s.stack := by
    intro hm
    have := hinv.stackVis next hm
    rw [hnext_unvisF] at this
    exact Bool.noConfusion this
  have hedge_lt : edge < (getCell s.cells current).walls.length := by
    rw [hinv.wallsLen, hWF.wallsLen]
    exact getD_opt_lt _ _ _ hslot0
  have hrev_lt : rev < (getCell s.cells next).walls.length := by
    rw [hinv.wallsLen, hWF.wallsLen]
    exact getD_opt_lt _ _ _ hrev0
  have hc1_next : getCell (setWall s.cells current edge) next = getCell s.cells next := by
    rw [getCell_setWall, if_neg]
    intro hcontra
    exact hne hcontra.1.symm
  have hvis2 : ∀ v, (s.visited.set next true).getD v false =
      if next = v then true else s.visited.getD v false := by
    intro v
    rw [getD_set_bool]
    by_cases hv : next = v
    · rw [if_pos ⟨hv, hinv.visLen ▸ hnext_ltN⟩, if_pos hv]
    · rw [if_neg (by tauto), if_neg hv]
  have hvis2mono : ∀ v, s.visited.getD v false = true →
      (s.visited.set next true).getD v false = true := by
    intro v hv
    rw [hvis2]
    by_cases h : next = v
    · rw [if_pos h]
    · rw [if_neg h]
      exact hv
  have hw2 : ∀ c i,
      (getCell (setWall (setWall s.cells current edge) next rev) c).walls.getD i true =
      if next = c ∧ rev = i then false
      else if current = c ∧ edge = i then false
      else (getCell s.cells c).walls.getD i true := by
    intro c i
    rw [getCell_setWall]
    by_cases hc1 : next = c
    · subst hc1
      rw [if_pos ⟨rfl, by rw [setWall_length, hinv.lenCells]; exact hnext_ltN⟩]
      show ((getCell (setWall s.cells current edge) next).walls.set rev false).getD i true = _
      rw [hc1_next, getD_set_bool]
      by_cases hir : rev = i
      · rw [if_pos ⟨hir, hrev_lt⟩, if_pos ⟨rfl, hir⟩]
      · rw [if_neg (by tauto), if_neg (by tauto), if_neg (by
          intro hcontra
          exact hne hcontra.1.symm)]
    · rw [if_neg (by tauto), getCell_setWall]
      by_cases hc2 : current = c
      · subst hc2
        rw [if_pos ⟨rfl, hinv.lenCells ▸ hcur_ltN⟩]
        show ((getCell s.cells current).walls.set edge false).getD i true = _
        rw [getD_set_bool]
        by_cases hie : edge = i
        · rw [if_pos ⟨hie, hedge_lt⟩, if_neg (by tauto), if_pos ⟨rfl, hie⟩]
        · rw [if_neg (by tauto), if_neg (by tauto), if_neg (by tauto)]
      · rw [if_neg (by tauto), if_neg (by tauto), if_neg (by tauto)]
  have hmemT2 : ∀ a b, ((a, b) ∈ T ++ [(current, next)]) ↔
      ((a, b) ∈ T ∨ (a = current ∧ b = next)) := by
    intro a b
    rw [List.mem_append, List.mem_singleton, Prod.mk.injEq]
  constructor
  case lenCells =>
    show (setWall (setWall s.cells current edge) next rev).length = _
    rw [setWall_length, setWall_length, hinv.lenCells]
  case nbrs =>
    intro c
    show (getCell (setWall (setWall s.cells current edge) next rev) c).neighbors = _
    rw [setWall_neighbors, setWall_neighbors, hinv.nbrs]
  case wallsLen =>
    intro c
    show (getCell (setWall (setWall s.cells current edge) next rev) c).walls.length = _
    rw [setWall_wallsLen, setWall_wallsLen, hinv.wallsLen]
  case visLen =>
    show (s.visited.set next true).length = _
    rw [List.length_set, hinv.visLen]
  case vis0 =>
    show (s.visited.set next true).getD 0 false = true
    rw [hvis2, if_neg hnext_ne0]
    exact hinv.vis0
  case stackVis =>
    intro v hv
    show (s.visited.set next true).getD v false = true
    rcases List.mem_cons.mp hv with he | hm
    · subst he
      rw [hvis2, if_pos rfl]
    · exact hvis2mono v (hinv.stackVis v (by rw [hstack]; exact hm))
  case stackNodup =>
    refine List.nodup_cons.mpr ⟨?_, ?_⟩
    · rw [← hstack]
      exact hnext_nstack
    · rw [← hstack]
      exact hinv.stackNodup
  case visReach =>
    intro v hv
    rw [hvis2] at hv
    by_cases hnv : next = v
    · subst hnv
      exact Relation.ReflTransGen.tail (hinv.visReach current hcur_vis) ⟨edge, hslot0⟩
    · rw [if_neg hnv] at hv
      exact hinv.visReach v hv
  case popped =>
    intro v hv hnotin i n hslot
    have hvne_next : v ≠ next := by
      intro he
      exact hnotin (he ▸ List.mem_cons_self next (current :: rest))
    have hvne_cur : v ≠ current := by
      intro he
      exact hnotin (by rw [he]; exact List.mem_cons_of_mem _ (List.mem_cons_self _ _))
    have hvold : s.visited.getD v false = true := by
      rw [hvis2, if_neg (fun he => hvne_next he.symm)] at hv
      exact hv
    have hvnotin_old : v ∉ s.stack := by
      rw [hstack]
      intro hm
      rcases List.mem_cons.mp hm with he | hm2
      · exact hvne_cur he
      · exact hnotin (List.mem_cons_of_mem _ (List.mem_cons_of_mem _ hm2))
    exact hvis2mono n (hinv.popped v hvold hvnotin_old i n hslot)
  case Tmem =>
    intro p q hpq
    rcases (hmemT2 p q).mp hpq with hold | ⟨hp, hq⟩
    · obtain ⟨h1, h2, h3, h4, h5⟩ := hinv.Tmem p q hold
      exact ⟨hvis2mono p h1, hvis2mono q h2, h3, h4, h5⟩
    · rw [hp, hq]
      refine ⟨hvis2mono current hcur_vis, ?_, ⟨edge, hslot0⟩, ⟨rev, hrev0⟩, hnext_ne0⟩
      rw [hvis2, if_pos rfl]
  case TsndNodup =>
    rw [List.map_append]
    simp only [List.map_cons, List.map_nil]
    rw [List.nodup_append]
    refine ⟨hinv.TsndNodup, List.nodup_singleton _, ?_⟩
    intro a ha hb
    rw [List.mem_singleton] at hb
    rw [hb] at ha
    have := (hinv.TsndChar next).mp ha
    rw [hnext_unvisF] at this
    exact Bool.noConfusion this.1
  case TsndChar =>
    intro v
    rw [List.map_append]
    simp only [List.map_cons, List.map_nil]
    rw [List.mem_append, List.mem_singleton]
    constructor
    · rintro (hmem | he)
      · obtain ⟨h1, h2⟩ := (hinv.TsndChar v).mp hmem
        exact ⟨hvis2mono v h1, h2⟩
      · rw [he]
        exact ⟨by rw [hvis2, if_pos rfl], hnext_ne0⟩
    · rintro ⟨h1, h2⟩
      by_cases hnv : next = v
      · right
        exact hnv.symm
      · left
        rw [hvis2, if_neg hnv] at h1
        exact (hinv.TsndChar v).mpr ⟨h1, h2⟩
  case Tprog =>
    intro k hk
    rw [List.length_append, List.length_singleton] at hk
    by_cases hklt : k < T.length
    · have hget : (T ++ [(current, next)]).get ⟨k, by rw [List.length_append]; omega⟩
          = T.get ⟨k, hklt⟩ := by
        rw [List.get_eq_getElem, List.get_eq_getElem]
        exact List.getElem_append_left hklt
      rw [hget, List.take_append_of_le_length (Nat.le_of_lt hklt)]
      exact hinv.Tprog k hklt
    · have hkeq : k = T.length := by omega
      subst hkeq
      have hget : (T ++ [(current, next)]).get ⟨T.length, by simp⟩ = (current, next) := by
        rw [List.get_eq_getElem]
        exact List.getElem_concat_length T (current, next) T.length rfl _
      rw [hget, List.take_left]
      by_cases hc0 : current = 0
      · exact Or.inl hc0
      · exact Or.inr ((hinv.TsndChar current).mpr ⟨hcur_vis, hc0⟩)
  case wallChar =>
    intro c i
    rw [hw2 c i]
    by_cases hcn : next = c ∧ rev = i
    · rcases hcn with ⟨he, hi⟩
      subst he
      subst hi
      rw [if_pos ⟨rfl, rfl⟩]
      constructor
      · intro _
        exact ⟨current, hrev0, Or.inr ((hmemT2 current next).mpr (Or.inr ⟨rfl, rfl⟩))⟩
      · intro _
        rfl
    · rw [if_neg hcn]
      by_cases hcc : current = c ∧ edge = i
      · rcases hcc with ⟨he, hi⟩
        subst he
        subst hi
        rw [if_pos ⟨rfl, rfl⟩]
        constructor
        · intro _
          exact ⟨next, hslot0, Or.inl ((hmemT2 current next).mpr (Or.inr ⟨rfl, rfl⟩))⟩
        · intro _
          rfl
      · rw [if_neg hcc, hinv.wallChar c i]
        constructor
        · rintro ⟨n, hsl, hT | hT⟩
          · exact ⟨n, hsl, Or.inl (List.mem_append_left _ hT)⟩
          · exact ⟨n, hsl, Or.inr (List.mem_append_left _ hT)⟩
        · rintro ⟨n, hsl, hT | hT⟩
          · rcases (hmemT2 c n).mp hT with hold | ⟨h1, h2⟩
            · exact ⟨n, hsl, Or.inl hold⟩
            · rw [h1, h2] at hsl
              have := hWF.uniq current i edge next hsl hslot0
              exact absurd ⟨h1.symm, this.symm⟩ hcc
          · rcases (hmemT2 n c).mp hT with hold | ⟨h1, h2⟩
            · exact ⟨n, hsl, Or.inr hold⟩
            · rw [h1, h2] at hsl
              have := hWF.uniq next i rev current hsl hrev0
              exact absurd ⟨h2.symm, this.symm⟩ hcn
  case countT =>
    have := count_set_true s.visited next hunvis
    rw [this.1, hinv.countT, List.length_append, List.length_singleton]

theorem genInv_step (cells0 : List MazeCell) (hWF : CellsWF cells0) (s : GenState)
    (T : List (Nat × Nat)) (hinv : GenInv cells0 s T) (r current : Nat) (rest : List Nat)
    (hstack : s.stack = current :: rest) :
    ∃ T2, GenInv cells0 (genStep r s current rest) T2 := by
  by_cases hu : unvisitedNeighbors (getCell s.cells current) s.visited = []
  · rw [genStep_pop r s current rest hu]
    exact ⟨T, genInv_pop cells0 hWF s T hinv current rest hstack hu⟩
  · have hpick := pick_mem_unvisited _ r hu
    obtain ⟨hslot_s, hunvis⟩ := (mem_unvisitedNeighbors _ _ _).mp hpick
    have hslot0 : (getCell cells0 current).neighbors.getD
        ((unvisitedNeighbors (getCell s.cells current) s.visited).getD
          (r % (unvisitedNeighbors (getCell s.cells current) s.visited).length) (0, 0)).2 none
        = some ((unvisitedNeighbors (getCell s.cells current) s.visited).getD
          (r % (unvisitedNeighbors (getCell s.cells current) s.visited).length) (0, 0)).1 := by
      rw [← hinv.nbrs]
      exact hslot_s
    obtain ⟨rev, hrev_eq⟩ := findRev_exists
      (getCell (setWall s.cells current
        ((unvisitedNeighbors (getCell s.cells current) s.visited).getD
          (r % (unvisitedNeighbors (getCell s.cells current) s.visited).length) (0, 0)).2)
        ((unvisitedNeighbors (getCell s.cells current) s.visited).getD
          (r % (unvisitedNeighbors (getCell s.cells current) s.visited).length) (0, 0)).1)
      current (by
        rw [setWall_neighbors, hinv.nbrs]
        exact hWF.symm current _ _ hslot0)
    have hrev0 : (getCell cells0
        ((unvisitedNeighbors (getCell s.cells current) s.visited).getD
          (r % (unvisitedNeighbors (getCell s.cells current) s.visited).length) (0, 0)).1
        ).neighbors.getD rev none = some current := by
      have := findRev_spec _ _ _ hrev_eq
      rwa [setWall_neighbors, hinv.nbrs] at this
    rw [genStep_push r s current rest rev hu hrev_eq]
    exact ⟨T ++ [(current, _)],
      genInv_push cells0 hWF s T hinv current rest hstack _ _ rev hslot_s hunvis hrev0⟩

theorem genInv_loop (cells0 : List MazeCell) (hWF : CellsWF cells0) (seeds : Nat → Nat) :
    ∀ (fuel : Nat) (s : GenState) (T : List (Nat × Nat)), GenInv cells0 s T →
    ∃ T2, GenInv cells0 (genLoop seeds fuel s) T2 := by
  intro fuel
  induction fuel with
  | zero =>
    intro s T hinv
    exact ⟨T, hinv⟩
  | succ m ih =>
    intro s T hinv
    show ∃ T2, GenInv cells0 (genLoop seeds (m + 1) s) T2
    rcases hstack : s.stack with _ | ⟨current, rest⟩
    · unfold genLoop
      rw [hstack]
      exact ⟨T, hinv⟩
    · unfold genLoop
      rw [hstack]
      obtain ⟨T2, hinv2⟩ := genInv_step cells0 hWF s T hinv (seeds m) current rest hstack
      exact ih _ T2 hinv2

theorem genInv_init (cells0 : List MazeCell) (hN : 1 ≤ cells0.length)
    (hwalls : allWallsTrue cells0) :
    GenInv cells0
      { cells := cells0,
        visited := (List.replicate cells0.length false).set 0 true,
        stack := [0] }
      [] := by
  have hvis : ∀ v, ((List.replicate cells0.length false).set 0 true).getD v false = true
      ↔ v = 0 := fun v => init_visited_getD cells0.length v hN
  constructor
  case lenCells => rfl
  case nbrs => intro c; rfl
  case wallsLen => intro c; rfl
  case visLen =>
    show ((List.replicate cells0.length false).set 0 true).length = _
    rw [List.length_set, List.length_replicate]
  case vis0 => exact (hvis 0).mpr rfl
  case stackVis =>
    intro v hv
    rw [List.mem_singleton] at hv
    rw [hv]
    exact (hvis 0).mpr rfl
  case stackNodup => exact List.nodup_singleton 0
  case visReach =>
    intro v hv
    rw [hvis v] at hv
    subst hv
    exact Relation.ReflTransGen.refl
  case popped =>
    intro v hv hnotin i n hslot
    rw [hvis v] at hv
    subst hv
    exact absurd (List.mem_singleton.mpr rfl) hnotin
  case Tmem =>
    intro p q hpq
    exact absurd hpq (List.not_mem_nil _)
  case TsndNodup => exact List.nodup_nil
  case TsndChar =>
    intro v
    constructor
    · intro hmem
      exact absurd hmem (List.not_mem_nil _)
    · rintro ⟨h1, h2⟩
      rw [hvis v] at h1
      exact absurd h1 h2
  case Tprog =>
    intro k hk
    exact absurd hk (by simp)
  case wallChar =>
    intro c i
    constructor
    · intro hfalse
      rw [hwalls c i] at hfalse
      exact Bool.noConfusion hfalse
    · rintro ⟨n, _, hT | hT⟩ <;> exact absurd hT (List.not_mem_nil _)
  case countT =>
    show ((List.replicate cells0.length false).set 0 true).count true = 0 + 1
    rw [init_visited_count cells0.length hN]

theorem genStep_visited (r : Nat) (s : GenState) (current : Nat) (rest : List Nat)
    (hu : ¬ unvisitedNeighbors (getCell s.cells current) s.visited = []) :
    (genStep r s current rest).visited = s.visited.set
      ((unvisitedNeighbors (getCell s.cells current) s.visited).getD
        (r % (unvisitedNeighbors (getCell s.cells current) s.visited).length) (0, 0)).1
      true := by
  unfold genStep
  rw [if_neg (by rw [List.isEmpty_iff]; exact hu)]

theorem genStep_stack (r : Nat) (s : GenState) (current : Nat) (rest : List Nat)
    (hu : ¬ unvisitedNeighbors (getCell s.cells current) s.visited = []) :
    (genStep r s current rest).stack =
      ((unvisitedNeighbors (getCell s.cells current) s.visited).getD
        (r % (unvisitedNeighbors (getCell s.cells current) s.visited).length) (0, 0)).1
      :: current :: rest := by
  unfold genStep
  rw [if_neg (by rw [List.isEmpty_iff]; exact hu)]

theorem genLoop_stack_empty (seeds : Nat → Nat) :
    ∀ (fuel : Nat) (s : GenState),
      2 * s.visited.count false + s.stack.length ≤ fuel →
      (genLoop seeds fuel s).stack = [] := by
  intro fuel
  induction fuel with
  | zero =>
    intro s hm
    have hlen0 : s.stack.length = 0 := by omega
    exact List.length_eq_zero.mp hlen0
  | succ m ih =>
    intro s hm
    rcases hstack : s.stack with _ | ⟨current, rest⟩
    · unfold genLoop
      rw [hstack]
      exact hstack
    · have hmlen : s.stack.length = rest.length + 1 := by rw [hstack]; rfl
      unfold genLoop
      rw [hstack]
      show (genLoop seeds m (genStep (seeds m) s current rest)).stack = []
      by_cases hu : unvisitedNeighbors (getCell s.cells current) s.visited = []
      · rw [genStep_pop _ s current rest hu]
        apply ih
        show 2 * s.visited.count false + rest.length ≤ m
        omega
      · have hpick := pick_mem_unvisited _ (seeds m) hu
        obtain ⟨hslot_s, hunvis⟩ := (mem_unvisitedNeighbors _ _ _).mp hpick
        have hcount := (count_set_true s.visited _ hunvis).2
        apply ih
        rw [genStep_visited (seeds m) s current rest hu,
          genStep_stack (seeds m) s current rest hu]
        show 2 * (s.visited.set _ true).count false + (rest.length + 2) ≤ m
        omega

/-! ## Consequences of the generator invariant at loop exit -/

theorem bool_eq_of_false_iff (a b : Bool) (h : (a = false) ↔ (b = false)) : a = b := by
  cases a <;> cases b <;> simp_all

theorem allWallsTrue_new (g : GridType) (w h : Nat) :
    allWallsTrue (GenericMaze.new g w h).cells := by
  intro c i
  rw [getCell_new]
  split_ifs with hc
  · show (List.replicate (shapeNumNeighbors g) true).getD i true = true
    by_cases hi : i < shapeNumNeighbors g
    · rw [List.getD_eq_getElem _ _ (by simpa using hi)]
      simp
    · rw [List.getD_eq_default _ _ (by simpa using Nat.le_of_not_lt hi)]
  · rfl

theorem init_visited_count_false (n : Nat) (hn : 1 ≤ n) :
    ((List.replicate n false).set 0 true).count false + 1 = n := by
  cases n with
  | zero => omega
  | succ m =>
    simp [List.replicate_succ, List.count_cons, List.count_replicate]

theorem final_visited_iff (cells0 : List MazeCell) (s : GenState) (T : List (Nat × Nat))
    (hinv : GenInv cells0 s T) (hempty : s.stack = []) :
    ∀ v, s.visited.getD v false = true ↔ NReach cells0 v := by
  intro v
  constructor
  · exact hinv.visReach v
  · intro hreach
    induction hreach with
    | refl => exact hinv.vis0
    | tail _ hadj ih =>
      obtain ⟨i, hslot⟩ := hadj
      exact hinv.popped _ ih (by rw [hempty]; exact List.not_mem_nil _) i _ hslot

theorem genInv_pair_eq (cells0 : List MazeCell) (s : GenState) (T : List (Nat × Nat))
    (hinv : GenInv cells0 s T) (c i n j : Nat)
    (hci : (getCell cells0 c).neighbors.getD i none = some n)
    (hnj : (getCell cells0 n).neighbors.getD j none = some c) :
    (getCell s.cells c).walls.getD i true = (getCell s.cells n).walls.getD j true := by
  apply bool_eq_of_false_iff
  rw [hinv.wallChar c i, hinv.wallChar n j]
  constructor
  · rintro ⟨m, hm, hT⟩
    rw [hci] at hm
    injection hm with hm2
    subst hm2
    exact ⟨c, hnj, hT.symm⟩
  · rintro ⟨m, hm, hT⟩
    rw [hnj] at hm
    injection hm with hm2
    subst hm2
    exact ⟨n, hci, hT.symm⟩

theorem openAdj_mem_T (cells0 : List MazeCell) (s : GenState) (T : List (Nat × Nat))
    (hinv : GenInv cells0 s T) (a b : Nat) (h : openAdj s.cells a b) :
    (a, b) ∈ T ∨ (b, a) ∈ T := by
  obtain ⟨i, hslot, hwall⟩ := h
  rw [hinv.nbrs] at hslot
  obtain ⟨n, hslot2, hT⟩ := (hinv.wallChar a i).mp hwall
  rw [hslot] at hslot2
  injection hslot2 with he
  subst he
  exact hT

theorem mem_T_openAdj (cells0 : List MazeCell) (s : GenState) (T : List (Nat × Nat))
    (hinv : GenInv cells0 s T) (a b : Nat) (hT : (a, b) ∈ T) :
    openAdj s.cells a b ∧ openAdj s.cells b a := by
  obtain ⟨_, _, ⟨i, hi⟩, ⟨j, hj⟩, _⟩ := hinv.Tmem a b hT
  constructor
  · exact ⟨i, by rw [hinv.nbrs]; exact hi, (hinv.wallChar a i).mpr ⟨b, hi, Or.inl hT⟩⟩
  · exact ⟨j, by rw [hinv.nbrs]; exact hj, (hinv.wallChar b j).mpr ⟨a, hj, Or.inr hT⟩⟩

theorem nodup_indexOf_getElem (l : List Nat) (hnd : l.Nodup) (k : Nat) (hk : k < l.length) :
    l.indexOf l[k] = k := by
  have hmem : l[k] ∈ l := List.getElem_mem hk
  have hlt := List.indexOf_lt_length.mpr hmem
  exact (List.Nodup.getElem_inj_iff hnd).mp (List.getElem_indexOf hlt)

theorem indexOf_lt_of_mem_take (l : List Nat) (hnd : l.Nodup) (a k : Nat)
    (h : a ∈ l.take k) : l.indexOf a < k := by
  obtain ⟨j, hj, hget⟩ := List.mem_iff_getElem.mp h
  have hjk : j < k := by
    have := hj
    simp only [List.length_take] at this
    omega
  have hjl : j < l.length := by
    have := hj
    simp only [List.length_take] at this
    omega
  have : l[j] = a := by
    rw [← List.getElem_take]
    exact hget
  rw [← this, nodup_indexOf_getElem l hnd j hjl]
  exact hjk

theorem T_edge_ord (cells0 : List MazeCell) (s : GenState) (T : List (Nat × Nat))
    (hinv : GenInv cells0 s T) (p q : Nat) (hT : (p, q) ∈ T) :
    Tord T p < Tord T q := by
  obtain ⟨k, hk, hget⟩ := List.mem_iff_getElem.mp hT
  have hkm : k < (T.map Prod.snd).length := by simpa using hk
  have hsndk : (T.map Prod.snd)[k] = q := by
    rw [List.getElem_map]
    rw [hget]
  have hq_ne : q ≠ 0 := (hinv.Tmem p q hT).2.2.2.2
  have hidxq : (T.map Prod.snd).indexOf q = k := by
    rw [← hsndk]
    exact nodup_indexOf_getElem _ hinv.TsndNodup k hkm
  have hTq : Tord T q = k + 1 := by
    rw [Tord, if_neg hq_ne, hidxq]
  have hgetk : T.get ⟨k, hk⟩ = (p, q) := by
    rw [List.get_eq_getElem]
    exact hget
  rcases hinv.Tprog k hk with h0 | hmem
  · rw [hgetk] at h0
    rw [hTq, Tord, if_pos h0]
    omega
  · rw [hgetk] at hmem
    rw [List.map_take] at hmem
    have hidxp := indexOf_lt_of_mem_take _ hinv.TsndNodup p k hmem
    rw [hTq, Tord]
    split_ifs <;> omega

theorem T_parent_unique (cells0 : List MazeCell) (s : GenState) (T : List (Nat × Nat))
    (hinv : GenInv cells0 s T) (p1 p2 q : Nat) (h1 : (p1, q) ∈ T) (h2 : (p2, q) ∈ T) :
    p1 = p2 := by
  obtain ⟨k1, hk1, hg1⟩ := List.mem_iff_getElem.mp h1
  obtain ⟨k2, hk2, hg2⟩ := List.mem_iff_getElem.mp h2
  have hk1m : k1 < (T.map Prod.snd).length := by simpa using hk1
  have hk2m : k2 < (T.map Prod.snd).length := by simpa using hk2
  have hs1 : (T.map Prod.snd)[k1] = q := by
    rw [List.getElem_map, hg1]
  have hs2 : (T.map Prod.snd)[k2] = q := by
    rw [List.getElem_map, hg2]
  have hkeq : k1 = k2 :=
    (List.Nodup.getElem_inj_iff hinv.TsndNodup).mp (hs1.trans hs2.symm)
  subst hkeq
  have hpq : (p1, q) = (p2, q) := by
    rw [← hg1, ← hg2]
  exact (Prod.ext_iff.mp hpq).1

theorem Tord_inj (cells0 : List MazeCell) (s : GenState) (T : List (Nat × Nat))
    (hinv : GenInv cells0 s T) (u v : Nat)
    (hu : u = 0 ∨ u ∈ T.map Prod.snd) (hv : v = 0 ∨ v ∈ T.map Prod.snd)
    (h : Tord T u = Tord T v) : u = v := by
  rcases hu with hu0 | humem
  · rcases hv with hv0 | hvmem
    · rw [hu0, hv0]
    · subst hu0
      have hvne : v ≠ 0 := ((hinv.TsndChar v).mp hvmem).2
      rw [Tord, Tord, if_pos rfl, if_neg hvne] at h
      omega
  · rcases hv with hv0 | hvmem
    · subst hv0
      have hune : u ≠ 0 := ((hinv.TsndChar u).mp humem).2
      rw [Tord, Tord, if_pos rfl, if_neg hune] at h
      omega
    · have hune : u ≠ 0 := ((hinv.TsndChar u).mp humem).2
      have hvne : v ≠ 0 := ((hinv.TsndChar v).mp hvmem).2
      rw [Tord, Tord, if_neg hune, if_neg hvne] at h
      have hidx : (T.map Prod.snd).indexOf u = (T.map Prod.snd).indexOf v := by omega
      have hul := List.indexOf_lt_length.mpr humem
      have hvl := List.indexOf_lt_length.mpr hvmem
      have h1 := List.getElem_indexOf hul
      have h2 := List.getElem_indexOf hvl
      rw [← h1, ← h2]
      congr 1

theorem T_endpoint_mem (cells0 : List MazeCell) (s : GenState) (T : List (Nat × Nat))
    (hinv : GenInv cells0 s T) (a b : Nat) (h : (a, b) ∈ T) :
    (a = 0 ∨ a ∈ T.map Prod.snd) ∧ b ∈ T.map Prod.snd := by
  obtain ⟨hva, hvb, _, _, hbne⟩ := hinv.Tmem a b h
  constructor
  · by_cases ha0 : a = 0
    · exact Or.inl ha0
    · exact Or.inr ((hinv.TsndChar a).mpr ⟨hva, ha0⟩)
  · exact (hinv.TsndChar b).mpr ⟨hvb, hbne⟩

theorem T_no_reverse (cells0 : List MazeCell) (s : GenState) (T : List (Nat × Nat))
    (hinv : GenInv cells0 s T) (p q : Nat) (h1 : (p, q) ∈ T) (h2 : (q, p) ∈ T) : False := by
  have o1 := T_edge_ord cells0 s T hinv p q h1
  have o2 := T_edge_ord cells0 s T hinv q p h2
  omega

/-! ## Counting open wall-pairs -/

theorem mem_openCellEntries (cells : List MazeCell) (c : Nat) (e : Nat × Nat) :
    e ∈ openCellEntries cells c ↔
      ∃ i, (getCell cells c).neighbors.getD i none = some e.2
        ∧ (getCell cells c).walls.getD i true = false ∧ e.1 = c := by
  unfold openCellEntries
  rw [List.mem_filterMap]
  constructor
  · rintro ⟨i, _, hfi⟩
    rcases hs : (getCell cells c).neighbors.getD i none with _ | n
    · rw [hs] at hfi
      replace hfi : (none : Option (Nat × Nat)) = some e := hfi
      exact Option.noConfusion hfi
    · rw [hs] at hfi
      replace hfi : (if (getCell cells c).walls.getD i true = false then
          some (c, n) else none) = some e := hfi
      split_ifs at hfi with hw
      injection hfi with he
      refine ⟨i, ?_, hw, ?_⟩
      · rw [hs, ← he]
      · rw [← he]
  · rintro ⟨i, hs, hw, hc⟩
    refine ⟨i, List.mem_range.mpr (getD_opt_lt _ _ _ hs), ?_⟩
    rw [hs]
    show (if (getCell cells c).walls.getD i true = false then
      some (c, e.2) else none) = some e
    rw [if_pos hw, hc.symm]

theorem mem_openDirected (cells : List MazeCell) (a b : Nat) :
    (a, b) ∈ openDirected cells ↔ a < cells.length
      ∧ ∃ i, (getCell cells a).neighbors.getD i none = some b
        ∧ (getCell cells a).walls.getD i true = false := by
  unfold openDirected
  rw [List.mem_flatMap]
  constructor
  · rintro ⟨c, hc, hmem⟩
    obtain ⟨i, hs, hw, hfst⟩ := (mem_openCellEntries cells c (a, b)).mp hmem
    have hca : c = a := hfst.symm
    subst hca
    exact ⟨List.mem_range.mp hc, i, hs, hw⟩
  · rintro ⟨ha, i, hs, hw⟩
    exact ⟨a, List.mem_range.mpr ha,
      (mem_openCellEntries cells a (a, b)).mpr ⟨i, hs, hw, rfl⟩⟩

theorem openDirected_nodup (cells : List MazeCell)
    (huniq : ∀ c i j n, (getCell cells c).neighbors.getD i none = some n →
      (getCell cells c).neighbors.getD j none = some n → i = j) :
    (openDirected cells).Nodup := by
  unfold openDirected
  rw [List.nodup_flatMap]
  constructor
  · intro c _
    apply List.Nodup.filterMap ?_ (List.nodup_range _)
    intro i j e hei hej
    rcases hsi : (getCell cells c).neighbors.getD i none with _ | n
    · rw [Option.mem_def, hsi] at hei
      replace hei : (none : Option (Nat × Nat)) = some e := hei
      exact Option.noConfusion hei
    · rw [Option.mem_def, hsi] at hei
      replace hei : (if (getCell cells c).walls.getD i true = false then
          some (c, n) else none) = some e := hei
      rcases hsj : (getCell cells c).neighbors.getD j none with _ | m
      · rw [Option.mem_def, hsj] at hej
        replace hej : (none : Option (Nat × Nat)) = some e := hej
        exact Option.noConfusion hej
      · rw [Option.mem_def, hsj] at hej
        replace hej : (if (getCell cells c).walls.getD j true = false then
            some (c, m) else none) = some e := hej
        split_ifs at hei hej with hwi hwj
        injection hei with hei2
        injection hej with hej2
        have hnm : n = m := by
          rw [← hej2] at hei2
          exact (Prod.ext_iff.mp hei2).2
        subst hnm
        exact huniq c i j n hsi hsj
  · have hlt : (List.range cells.length).Pairwise (· < ·) := List.pairwise_lt_range _
    apply hlt.imp
    intro c c2 hcc e he1 he2
    have h1 := ((mem_openCellEntries cells c e).mp he1).choose_spec.2.2
    have h2 := ((mem_openCellEntries cells c2 e).mp he2).choose_spec.2.2
    omega

theorem countP_lt_split (l : List (Nat × Nat)) (hne : ∀ e ∈ l, e.1 ≠ e.2) :
    l.countP (fun e => e.1 < e.2) + l.countP (fun e => e.2 < e.1) = l.length := by
  induction l with
  | nil => rfl
  | cons a t ih =>
    have ha := hne a (List.mem_cons_self a t)
    have ht := ih (fun e he => hne e (List.mem_cons_of_mem _ he))
    by_cases h1 : a.1 < a.2
    · rw [List.countP_cons_of_pos _ _ (by simpa using h1),
        List.countP_cons_of_neg _ _ (by simp; omega)]
      simp only [List.length_cons]
      omega
    · rw [List.countP_cons_of_neg _ _ (by simpa using h1),
        List.countP_cons_of_pos _ _ (by simp; omega)]
      simp only [List.length_cons]
      omega

theorem genInv_openPairCount (cells0 : List MazeCell) (hWF : CellsWF cells0)
    (s : GenState) (T : List (Nat × Nat)) (hinv : GenInv cells0 s T) :
    openPairCount s.cells = T.length := by
  have hTne : ∀ e ∈ T, e.1 ≠ e.2 := by
    rintro ⟨p, q⟩ hT he
    obtain ⟨_, _, ⟨i, hi⟩, _, _⟩ := hinv.Tmem p q hT
    replace he : p = q := he
    subst he
    exact hWF.irrefl p i p hi rfl
  have hperm : (openDirected s.cells).Perm (T ++ T.map Prod.swap) := by
    apply List.perm_of_nodup_nodup_toFinset_eq
    · apply openDirected_nodup
      intro c i j n h1 h2
      rw [hinv.nbrs] at h1 h2
      exact hWF.uniq c i j n h1 h2
    · rw [List.nodup_append]
      refine ⟨hinv.TsndNodup.of_map, List.Nodup.map Prod.swap_injective hinv.TsndNodup.of_map, ?_⟩
      rintro ⟨p, q⟩ hT hswap
      rw [List.mem_map] at hswap
      obtain ⟨⟨p2, q2⟩, hmem2, heq⟩ := hswap
      have hp2 : p2 = q := by
        have := (Prod.ext_iff.mp heq).2
        simpa using this
      have hq2 : q2 = p := by
        have := (Prod.ext_iff.mp heq).1
        simpa using this
      rw [hp2, hq2] at hmem2
      exact T_no_reverse cells0 s T hinv p q hT hmem2
    · ext e
      rcases e with ⟨a, b⟩
      simp only [List.mem_toFinset]
      rw [mem_openDirected, List.mem_append, List.mem_map]
      constructor
      · rintro ⟨_, i, hs, hw⟩
        rw [hinv.nbrs] at hs
        obtain ⟨n, hs2, hT⟩ := (hinv.wallChar a i).mp hw
        rw [hs] at hs2
        injection hs2 with he
        subst he
        rcases hT with hT | hT
        · exact Or.inl hT
        · exact Or.inr ⟨(b, a), hT, rfl⟩
      · rintro (hT | ⟨⟨p, q⟩, hmem, heq⟩)
        · obtain ⟨hv, _, ⟨i, hi⟩, _, _⟩ := hinv.Tmem a b hT
          have halt : a < cells0.length := hinv.visLen ▸ getD_lt_of_ne_default _ _ hv
          refine ⟨hinv.lenCells ▸ halt, i, ?_, ?_⟩
          · rw [hinv.nbrs]
            exact hi
          · exact (hinv.wallChar a i).mpr ⟨b, hi, Or.inl hT⟩
        · have hp : p = b := by
            have := (Prod.ext_iff.mp heq).2
            simpa using this
          have hq : q = a := by
            have := (Prod.ext_iff.mp heq).1
            simpa using this
          rw [hp, hq] at hmem
          obtain ⟨_, hv, _, ⟨j, hj⟩, _⟩ := hinv.Tmem b a hmem
          have halt : a < cells0.length := hinv.visLen ▸ getD_lt_of_ne_default _ _ hv
          refine ⟨hinv.lenCells ▸ halt, j, ?_, ?_⟩
          · rw [hinv.nbrs]
            exact hj
          · exact (hinv.wallChar a j).mpr ⟨b, hj, Or.inr hmem⟩
  rw [openPairCount, hperm.countP_eq, List.countP_append, List.countP_map]
  have hcomp : T.countP ((fun p => decide (p.1 < p.2)) ∘ Prod.swap)
      = T.countP (fun p => decide (p.2 < p.1)) := rfl
  rw [hcomp]
  have := countP_lt_split T hTne
  omega

theorem count_true_eq_countP_range (l : List Bool) :
    l.count true = (List.range l.length).countP (fun i => l.getD i false) := by
  induction l with
  | nil => rfl
  | cons a t ih =>
    rw [List.count_cons, show (a :: t).length = t.length + 1 from rfl,
      List.range_succ_eq_map, List.countP_cons, List.countP_map]
    have hcomp : (List.range t.length).countP ((fun i => (a :: t).getD i false) ∘ Nat.succ)
        = t.count true := ih.symm
    rw [hcomp]
    cases a <;> simp <;> omega

theorem card_filter_range (n : Nat) (p : Nat → Bool) :
    ((Finset.range n).filter (fun v => p v = true)).card = (List.range n).countP p := by
  induction n with
  | zero => rfl
  | succ m ih =>
    rw [Finset.range_succ, Finset.filter_insert, List.range_succ, List.countP_append]
    by_cases hp : p m = true
    · rw [if_pos hp, Finset.card_insert_of_not_mem (by simp)]
      rw [ih]
      simp [hp]
    · rw [if_neg hp, ih]
      simp [hp]

theorem genInv_reach_card (cells0 : List MazeCell) (s : GenState) (T : List (Nat × Nat))
    (hinv : GenInv cells0 s T) (hempty : s.stack = []) :
    Set.ncard { v | NReach cells0 v } = T.length + 1 := by
  have hiff := final_visited_iff cells0 s T hinv hempty
  have hset : { v | NReach cells0 v }
      = ↑((Finset.range cells0.length).filter (fun v => s.visited.getD v false = true)) := by
    ext v
    simp only [Set.mem_setOf_eq, Finset.coe_filter, Finset.mem_range, Set.mem_setOf_eq]
    constructor
    · intro hreach
      have hv := (hiff v).mpr hreach
      exact ⟨hinv.visLen ▸ getD_lt_of_ne_default _ _ hv, hv⟩
    · rintro ⟨_, hv⟩
      exact (hiff v).mp hv
  rw [hset, Set.ncard_coe_Finset, card_filter_range, ← hinv.visLen,
    ← count_true_eq_countP_range, hinv.countT]

/-! ## Connectivity and acyclicity of the final open-wall graph -/

theorem genInv_connected (cells0 : List MazeCell) (s : GenState) (T : List (Nat × Nat))
    (hinv : GenInv cells0 s T) :
    ∀ v, s.visited.getD v false = true →
      Relation.ReflTransGen (openAdj s.cells) 0 v := by
  have main : ∀ d v, Tord T v < d → s.visited.getD v false = true →
      Relation.ReflTransGen (openAdj s.cells) 0 v := by
    intro d
    induction d with
    | zero =>
      intro v h
      omega
    | succ m ih =>
      intro v hord hvis
      by_cases hv0 : v = 0
      · rw [hv0]
      · have hvmem : v ∈ T.map Prod.snd := (hinv.TsndChar v).mpr ⟨hvis, hv0⟩
        obtain ⟨k, hk, hgm⟩ := List.mem_iff_getElem.mp hvmem
        have hkT : k < T.length := by simpa using hk
        have hTk : (T[k]).2 = v := by
          rw [← hgm, List.getElem_map]
        have hmemT : ((T[k]).1, v) ∈ T := by
          have he : T[k] = ((T[k]).1, v) := by
            rw [← hTk]
          rw [← he]
          exact List.getElem_mem hkT
        have hordp := T_edge_ord cells0 s T hinv _ v hmemT
        have hvisp := (hinv.Tmem _ v hmemT).1
        have hrtg := ih (T[k]).1 (by omega) hvisp
        exact hrtg.tail (mem_T_openAdj cells0 s T hinv _ v hmemT).1
  intro v hvis
  exact main (Tord T v + 1) v (by omega) hvis

theorem genInv_acyclic (cells0 : List MazeCell) (s : GenState) (T : List (Nat × Nat))
    (hinv : GenInv cells0 s T) :
    ∀ xs, ¬ IsOpenCycle s.cells xs := by
  rintro xs ⟨hlen, hnodup, hchain, hclose⟩
  have hne : xs ≠ [] := by
    intro h
    rw [h] at hlen
    simp at hlen
  have hlenpos : 0 < xs.length := List.length_pos.mpr hne
  -- every cyclic successor pair is an open edge
  have hedge : ∀ k, k < xs.length →
      openAdj s.cells (xs.getD k 0) (xs.getD (if k + 1 = xs.length then 0 else k + 1) 0) := by
    intro k hk
    by_cases hkL : k + 1 = xs.length
    · rw [if_pos hkL]
      apply hclose
      · obtain rfl : k = xs.length - 1 := by omega
        rw [List.getD_eq_getElem _ _ (by omega), List.getLast?_eq_getElem?,
          List.getElem?_eq_getElem (by omega)]
      · rw [List.getD_eq_getElem _ _ (by omega), List.head?_eq_getElem?,
          List.getElem?_eq_getElem (by omega)]
    · rw [if_neg hkL]
      have hchain2 := List.chain'_iff_get.mp hchain k (by omega)
      rw [List.getD_eq_getElem _ _ (by omega), List.getD_eq_getElem _ _ (by omega)]
      rw [List.get_eq_getElem, List.get_eq_getElem] at hchain2
      exact hchain2
  -- each cycle vertex is an endpoint of a tree edge
  have hvert : ∀ k, k < xs.length → xs.getD k 0 = 0 ∨ xs.getD k 0 ∈ T.map Prod.snd := by
    intro k hk
    have he := hedge k hk
    rcases openAdj_mem_T cells0 s T hinv _ _ he with hT | hT
    · exact (T_endpoint_mem cells0 s T hinv _ _ hT).1
    · exact Or.inr (T_endpoint_mem cells0 s T hinv _ _ hT).2
  -- pick the position of maximal discovery order
  obtain ⟨m, hmr, hmax⟩ := Finset.exists_max_image (Finset.range xs.length)
    (fun k => Tord T (xs.getD k 0)) ⟨0, by simpa using hlenpos⟩
  rw [Finset.mem_range] at hmr
  -- predecessor and successor positions
  have hvals_ne : ∀ k1 k2, k1 < xs.length → k2 < xs.length → k1 ≠ k2 →
      xs.getD k1 0 ≠ xs.getD k2 0 := by
    intro k1 k2 h1 h2 hne12 heq
    rw [List.getD_eq_getElem _ _ h1, List.getD_eq_getElem _ _ h2] at heq
    exact hne12 ((List.Nodup.getElem_inj_iff hnodup).mp heq)
  have hord_lt : ∀ k, k < xs.length → k ≠ m → Tord T (xs.getD k 0) < Tord T (xs.getD m 0) := by
    intro k hk hkm
    have hle := hmax k (Finset.mem_range.mpr hk)
    rcases Nat.lt_or_ge (Tord T (xs.getD k 0)) (Tord T (xs.getD m 0)) with h | h
    · exact h
    · exfalso
      have heq : Tord T (xs.getD k 0) = Tord T (xs.getD m 0) := by omega
      have := Tord_inj cells0 s T hinv _ _ (hvert k hk) (hvert m hmr) heq
      exact hvals_ne k m hk hmr hkm this
  -- the two cyclic neighbors of position m
  set succm := if m + 1 = xs.length then 0 else m + 1 with hsuccm
  set predm := if m = 0 then xs.length - 1 else m - 1 with hpredm
  have hsucc_lt : succm < xs.length := by
    rw [hsuccm]
    split_ifs <;> omega
  have hpred_lt : predm < xs.length := by
    rw [hpredm]
    split_ifs <;> omega
  have hsucc_ne : succm ≠ m := by
    rw [hsuccm]
    split_ifs with hc <;> omega
  have hpred_ne : predm ≠ m := by
    rw [hpredm]
    split_ifs with hc <;> omega
  have hps_ne : predm ≠ succm := by
    rw [hpredm, hsuccm]
    split_ifs with h1 h2 h2 <;> omega
  -- edge m → succm
  have he1 := hedge m hmr
  rw [← hsuccm] at he1
  -- edge predm → m
  have he2 : openAdj s.cells (xs.getD predm 0) (xs.getD m 0) := by
    have := hedge predm hpred_lt
    have harr : (if predm + 1 = xs.length then 0 else predm + 1) = m := by
      rw [hpredm]
      split_ifs with h1 h2 h2 <;> omega
    rwa [harr] at this
  -- both edges are tree edges oriented towards m
  have ht1 : (xs.getD succm 0, xs.getD m 0) ∈ T := by
    rcases openAdj_mem_T cells0 s T hinv _ _ he1 with hT | hT
    · exfalso
      have := T_edge_ord cells0 s T hinv _ _ hT
      have := hord_lt succm hsucc_lt hsucc_ne
      omega
    · exact hT
  have ht2 : (xs.getD predm 0, xs.getD m 0) ∈ T := by
    rcases openAdj_mem_T cells0 s T hinv _ _ he2 with hT | hT
    · exact hT
    · exfalso
      have := T_edge_ord cells0 s T hinv _ _ hT
      have := hord_lt predm hpred_lt hpred_ne
      omega
  have := T_parent_unique cells0 s T hinv _ _ _ ht1 ht2
  exact hvals_ne succm predm hsucc_lt hpred_lt (fun h => hps_ne h.symm) this

/-! ## Packaging the generator run on a freshly built grid -/

theorem generate_final (g : GridType) (w h : Nat) (hw : 1 ≤ w) (hh : 1 ≤ h)
    (seeds : Nat → Nat) :
    ∃ T, GenInv (GenericMaze.new g w h).cells
      (genLoop seeds (2 * (GenericMaze.new g w h).cells.length + 1)
        { cells := (GenericMaze.new g w h).cells,
          visited := (List.replicate (GenericMaze.new g w h).cells.length false).set 0 true,
          stack := [0] }) T
    ∧ (genLoop seeds (2 * (GenericMaze.new g w h).cells.length + 1)
        { cells := (GenericMaze.new g w h).cells,
          visited := (List.replicate (GenericMaze.new g w h).cells.length false).set 0 true,
          stack := [0] }).stack = [] := by
  have hN : 1 ≤ (GenericMaze.new g w h).cells.length := by
    rw [new_cells_length]
    exact Nat.mul_pos hw hh
  have hinv0 := genInv_init (GenericMaze.new g w h).cells hN (allWallsTrue_new g w h)
  obtain ⟨T, hinvT⟩ := genInv_loop (GenericMaze.new g w h).cells (new_WF g w h hw hh)
    seeds (2 * (GenericMaze.new g w h).cells.length + 1) _ [] hinv0
  refine ⟨T, hinvT, ?_⟩
  apply genLoop_stack_empty
  have hcf := init_visited_count_false (GenericMaze.new g w h).cells.length hN
  show 2 * ((List.replicate (GenericMaze.new g w h).cells.length false).set 0 true).count false
      + [0].length ≤ 2 * (GenericMaze.new g w h).cells.length + 1
  simp only [List.length_singleton]
  omega

/-! ## C7: both sides of every opened wall-pair stay equal -/

/-- C7: after `generate`, for every pair of mutually adjacent cells the two
wall flags of the undirected edge are equal: whenever slot `i` of cell `c`
holds `n` and slot `j` of cell `n` holds `c`, the two wall values coincide
(the generator always opens the slot of the current cell together with the
reverse slot of the chosen neighbor). -/
theorem generate_wall_pairs_equal (g : GridType) (w h : Nat) (hw : 1 ≤ w) (hh : 1 ≤ h)
    (seeds : Nat → Nat) (c i n j : Nat)
    (h1 : (getCell ((GenericMaze.new g w h).generate seeds).cells c).neighbors.getD i none
      = some n)
    (h2 : (getCell ((GenericMaze.new g w h).generate seeds).cells n).neighbors.getD j none
      = some c) :
    (getCell ((GenericMaze.new g w h).generate seeds).cells c).walls.getD i true
      = (getCell ((GenericMaze.new g w h).generate seeds).cells n).walls.getD j true := by
  obtain ⟨T, hinv, _⟩ := generate_final g w h hw hh seeds
  replace h1 : (getCell (genLoop seeds (2 * (GenericMaze.new g w h).cells.length + 1)
      { cells := (GenericMaze.new g w h).cells,
        visited := (List.replicate (GenericMaze.new g w h).cells.length false).set 0 true,
        stack := [0] }).cells c).neighbors.getD i none = some n := h1
  replace h2 : (getCell (genLoop seeds (2 * (GenericMaze.new g w h).cells.length + 1)
      { cells := (GenericMaze.new g w h).cells,
        visited := (List.replicate (GenericMaze.new g w h).cells.length false).set 0 true,
        stack := [0] }).cells n).neighbors.getD j none = some c := h2
  rw [hinv.nbrs] at h1 h2
  exact genInv_pair_eq _ _ T hinv c i n j h1 h2

/-- Witness for `generate_wall_pairs_equal` on the 2×1 rectangular grid:
slot E of cell 0 holds 1 and slot W of cell 1 holds 0. -/
theorem generate_wall_pairs_equal_witness :
    (getCell ((GenericMaze.new .rectangular 2 1).generate (fun _ => 0)).cells 0).walls.getD
        2 true
      = (getCell ((GenericMaze.new .rectangular 2 1).generate (fun _ => 0)).cells 1).walls.getD
        3 true :=
  generate_wall_pairs_equal .rectangular 2 1 (by decide) (by decide) (fun _ => 0) 0 2 1 3
    (by decide) (by decide)

/-! ## C1: generate produces a spanning tree of the reachable cells -/

/-- C1: for every topology and all `width, height ≥ 1` and every random
stream, after `generate` the number of open undirected wall-pairs is exactly
(number of cells reachable from cell 0 in the neighbor graph) minus one, the
open-wall subgraph connects every reachable cell to cell 0, and it has no
simple cycle: the open walls form a spanning tree of the reachable cells. -/
theorem generate_spanning_tree (g : GridType) (w h : Nat) (hw : 1 ≤ w) (hh : 1 ≤ h)
    (seeds : Nat → Nat) :
    openPairCount ((GenericMaze.new g w h).generate seeds).cells + 1
        = Set.ncard { v | NReach (GenericMaze.new g w h).cells v }
    ∧ (∀ v, NReach (GenericMaze.new g w h).cells v →
        Relation.ReflTransGen (openAdj ((GenericMaze.new g w h).generate seeds).cells) 0 v)
    ∧ ∀ xs, ¬ IsOpenCycle ((GenericMaze.new g w h).generate seeds).cells xs := by
  obtain ⟨T, hinv, hempty⟩ := generate_final g w h hw hh seeds
  refine ⟨?_, ?_, ?_⟩
  · show openPairCount (genLoop seeds (2 * (GenericMaze.new g w h).cells.length + 1)
        { cells := (GenericMaze.new g w h).cells,
          visited := (List.replicate (GenericMaze.new g w h).cells.length false).set 0 true,
          stack := [0] }).cells + 1 = _
    rw [genInv_openPairCount _ (new_WF g w h hw hh) _ T hinv,
      genInv_reach_card _ _ T hinv hempty]
  · intro v hreach
    have hv := (final_visited_iff _ _ T hinv hempty v).mpr hreach
    show Relation.ReflTransGen (openAdj (genLoop seeds
        (2 * (GenericMaze.new g w h).cells.length + 1)
        { cells := (GenericMaze.new g w h).cells,
          visited := (List.replicate (GenericMaze.new g w h).cells.length false).set 0 true,
          stack := [0] }).cells) 0 v
    exact genInv_connected _ _ T hinv v hv
  · intro xs
    show ¬ IsOpenCycle (genLoop seeds (2 * (GenericMaze.new g w h).cells.length + 1)
        { cells := (GenericMaze.new g w h).cells,
          visited := (List.replicate (GenericMaze.new g w h).cells.length false).set 0 true,
          stack := [0] }).cells xs
    exact genInv_acyclic _ _ T hinv xs

/-- Witness for `generate_spanning_tree` at the 2×2 rectangular grid. -/
theorem generate_spanning_tree_witness :
    openPairCount ((GenericMaze.new .rectangular 2 2).generate (fun k => k)).cells + 1
        = Set.ncard { v | NReach (GenericMaze.new .rectangular 2 2).cells v }
    ∧ (∀ v, NReach (GenericMaze.new .rectangular 2 2).cells v →
        Relation.ReflTransGen
          (openAdj ((GenericMaze.new .rectangular 2 2).generate (fun k => k)).cells) 0 v)
    ∧ ∀ xs, ¬ IsOpenCycle ((GenericMaze.new .rectangular 2 2).generate (fun k => k)).cells xs :=
  generate_spanning_tree .rectangular 2 2 (by decide) (by decide) (fun k => k)

/-! ## C4: termination and single-push -/

theorem genLoopTr_nil (seeds : Nat → Nat) (m : Nat) (s : GenState) (acc : List Nat)
    (hstack : s.stack = []) : genLoopTr seeds (m + 1) s acc = (s, acc) := by
  conv_lhs => unfold genLoopTr
  rw [hstack]

theorem genLoopTr_cons (seeds : Nat → Nat) (m : Nat) (s : GenState) (acc : List Nat)
    (current : Nat) (rest : List Nat) (hstack : s.stack = current :: rest) :
    genLoopTr seeds (m + 1) s acc =
      if (unvisitedNeighbors (getCell s.cells current) s.visited).isEmpty = true
      then genLoopTr seeds m { s with stack := rest } acc
      else genLoopTr seeds m (genStep (seeds m) s current rest)
        (acc ++ [((unvisitedNeighbors (getCell s.cells current) s.visited).getD
          (seeds m % (unvisitedNeighbors (getCell s.cells current) s.visited).length)
          (0, 0)).1]) := by
  conv_lhs => unfold genLoopTr
  rw [hstack]

theorem genLoopTr_fst (seeds : Nat → Nat) :
    ∀ (fuel : Nat) (s : GenState) (acc : List Nat),
      (genLoopTr seeds fuel s acc).1 = genLoop seeds fuel s := by
  intro fuel
  induction fuel with
  | zero =>
    intro s acc
    rfl
  | succ m ih =>
    intro s acc
    rcases hstack : s.stack with _ | ⟨current, rest⟩
    · rw [genLoopTr_nil seeds m s acc hstack]
      conv_rhs => unfold genLoop
      rw [hstack]
    · rw [genLoopTr_cons seeds m s acc current rest hstack]
      have hloop : genLoop seeds (m + 1) s = genLoop seeds m (genStep (seeds m) s current rest) := by
        conv_lhs => unfold genLoop
        rw [hstack]
      rw [hloop]
      by_cases hu : unvisitedNeighbors (getCell s.cells current) s.visited = []
      · rw [if_pos (by rw [hu]; rfl)]
        rw [genStep_pop _ s current rest hu]
        exact ih _ _
      · rw [if_neg (by rw [List.isEmpty_iff]; exact hu)]
        exact ih _ _

theorem genLoopTr_pushes (seeds : Nat → Nat) :
    ∀ (fuel : Nat) (s : GenState) (acc : List Nat),
      acc.Nodup →
      (∀ p ∈ acc, s.visited.getD p false = true) →
      ((genLoopTr seeds fuel s acc).2.Nodup
        ∧ ∀ p ∈ (genLoopTr seeds fuel s acc).2,
            (genLoopTr seeds fuel s acc).1.visited.getD p false = true) := by
  intro fuel
  induction fuel with
  | zero =>
    intro s acc hnd hvis
    exact ⟨hnd, hvis⟩
  | succ m ih =>
    intro s acc hnd hvis
    rcases hstack : s.stack with _ | ⟨current, rest⟩
    · rw [genLoopTr_nil seeds m s acc hstack]
      exact ⟨hnd, hvis⟩
    · rw [genLoopTr_cons seeds m s acc current rest hstack]
      by_cases hu : unvisitedNeighbors (getCell s.cells current) s.visited = []
      · rw [if_pos (by rw [hu]; rfl)]
        exact ih _ acc hnd hvis
      · rw [if_neg (by rw [List.isEmpty_iff]; exact hu)]
        have hpick := pick_mem_unvisited _ (seeds m) hu
        obtain ⟨hslot_s, hunvis⟩ := (mem_unvisitedNeighbors _ _ _).mp hpick
        have hunvisF := getD_false_default_of_false _ _ hunvis
        have hnext_lt : ((unvisitedNeighbors (getCell s.cells current) s.visited).getD
            (seeds m % (unvisitedNeighbors (getCell s.cells current) s.visited).length)
            (0, 0)).1 < s.visited.length := getD_lt_of_false _ _ hunvis
        apply ih
        · rw [List.nodup_append]
          refine ⟨hnd, List.nodup_singleton _, ?_⟩
          intro p hp hq
          rw [List.mem_singleton] at hq
          have := hvis p hp
          rw [hq, hunvisF] at this
          exact Bool.noConfusion this
        · intro p hp
          rw [List.mem_append, List.mem_singleton] at hp
          rw [genStep_visited (seeds m) s current rest hu, getD_set_bool]
          rcases hp with hp | hp
          · have := hvis p hp
            split_ifs with hc
            · rfl
            · exact this
          · rw [if_pos ⟨hp.symm, hnext_lt⟩]

/-- C4: for every topology, all `width, height ≥ 1` and every random
stream, the `generate` loop terminates (the fuel `2N+1` given to the
embedded loop drains the stack completely, so the Rust `while` loop exits),
the instrumented run records the same final state, the recorded sequence of
pushed cells (including the initial push of cell 0) has no duplicates, and
every pushed cell index is in bounds — every loop iteration either pops the
stack or pushes a not-yet-visited in-range cell. -/
theorem generate_terminates_no_double_push (g : GridType) (w h : Nat)
    (hw : 1 ≤ w) (hh : 1 ≤ h) (seeds : Nat → Nat) :
    (genLoop seeds (2 * (GenericMaze.new g w h).cells.length + 1)
      { cells := (GenericMaze.new g w h).cells,
        visited := (List.replicate (GenericMaze.new g w h).cells.length false).set 0 true,
        stack := [0] }).stack = []
    ∧ (genLoopTr seeds (2 * (GenericMaze.new g w h).cells.length + 1)
        { cells := (GenericMaze.new g w h).cells,
          visited := (List.replicate (GenericMaze.new g w h).cells.length false).set 0 true,
          stack := [0] } [0]).1
      = genLoop seeds (2 * (GenericMaze.new g w h).cells.length + 1)
        { cells := (GenericMaze.new g w h).cells,
          visited := (List.replicate (GenericMaze.new g w h).cells.length false).set 0 true,
          stack := [0] }
    ∧ (genLoopTr seeds (2 * (GenericMaze.new g w h).cells.length + 1)
        { cells := (GenericMaze.new g w h).cells,
          visited := (List.replicate (GenericMaze.new g w h).cells.length false).set 0 true,
          stack := [0] } [0]).2.Nodup
    ∧ ∀ p ∈ (genLoopTr seeds (2 * (GenericMaze.new g w h).cells.length + 1)
        { cells := (GenericMaze.new g w h).cells,
          visited := (List.replicate (GenericMaze.new g w h).cells.length false).set 0 true,
          stack := [0] } [0]).2, p < (GenericMaze.new g w h).cells.length := by
  have hN : 1 ≤ (GenericMaze.new g w h).cells.length := by
    rw [new_cells_length]
    exact Nat.mul_pos hw hh
  obtain ⟨T, hinv, hempty⟩ := generate_final g w h hw hh seeds
  refine ⟨hempty, genLoopTr_fst seeds _ _ _, ?_, ?_⟩
  · exact (genLoopTr_pushes seeds _ _ [0] (List.nodup_singleton 0) (by
      intro p hp
      rw [List.mem_singleton] at hp
      rw [hp]
      exact (init_visited_getD _ 0 hN).mpr rfl)).1
  · intro p hp
    have hfin := (genLoopTr_pushes seeds _ _ [0] (List.nodup_singleton 0) (by
      intro q hq
      rw [List.mem_singleton] at hq
      rw [hq]
      exact (init_visited_getD _ 0 hN).mpr rfl)).2 p hp
    rw [genLoopTr_fst seeds _ _ _] at hfin
    have hlt := getD_lt_of_ne_default _ _ hfin
    rwa [hinv.visLen] at hlt

/-- Witness for `generate_terminates_no_double_push` at the 3×2 triangular grid. -/
theorem generate_terminates_no_double_push_witness :
    (genLoop (fun k => k + 1) (2 * (GenericMaze.new .triangular 3 2).cells.length + 1)
      { cells := (GenericMaze.new .triangular 3 2).cells,
        visited :=
          (List.replicate (GenericMaze.new .triangular 3 2).cells.length false).set 0 true,
        stack := [0] }).stack = []
    ∧ (genLoopTr (fun k => k + 1) (2 * (GenericMaze.new .triangular 3 2).cells.length + 1)
        { cells := (GenericMaze.new .triangular 3 2).cells,
          visited :=
            (List.replicate (GenericMaze.new .triangular 3 2).cells.length false).set 0 true,
          stack := [0] } [0]).1
      = genLoop (fun k => k + 1) (2 * (GenericMaze.new .triangular 3 2).cells.length + 1)
        { cells := (GenericMaze.new .triangular 3 2).cells,
          visited :=
            (List.replicate (GenericMaze.new .triangular 3 2).cells.length false).set 0 true,
          stack := [0] }
    ∧ (genLoopTr (fun k => k + 1) (2 * (GenericMaze.new .triangular 3 2).cells.length + 1)
        { cells := (GenericMaze.new .triangular 3 2).cells,
          visited :=
            (List.replicate (GenericMaze.new .triangular 3 2).cells.length false).set 0 true,
          stack := [0] } [0]).2.Nodup
    ∧ ∀ p ∈ (genLoopTr (fun k => k + 1) (2 * (GenericMaze.new .triangular 3 2).cells.length + 1)
        { cells := (GenericMaze.new .triangular 3 2).cells,
          visited :=
            (List.replicate (GenericMaze.new .triangular 3 2).cells.length false).set 0 true,
          stack := [0] } [0]).2, p < (GenericMaze.new .triangular 3 2).cells.length :=
  generate_terminates_no_double_push .triangular 3 2 (by decide) (by decide) (fun k => k + 1)

/-! ## Walks and distances in the open-wall graph -/

theorem openAdj_lt (cells : List MazeCell) (u v : Nat) (h : openAdj cells u v) :
    u < cells.length := by
  obtain ⟨i, hs, _⟩ := h
  by_contra hge
  rw [getCell_ge cells u (by omega)] at hs
  rw [List.getD_eq_default _ _ (by simp [defaultCell])] at hs
  exact Option.noConfusion hs

theorem reachInN_zero (cells : List MazeCell) (a b : Nat) :
    ReachInN cells 0 a b ↔ a = b := by
  constructor
  · rintro ⟨xs, hch, hh, hl, hlen⟩
    rcases xs with _ | ⟨x, xs2⟩
    · exact Option.noConfusion hh
    · rcases xs2 with _ | ⟨y, xs3⟩
      · injection hh with hh2
        rw [List.getLast?_singleton] at hl
        injection hl with hl2
        rw [← hh2, ← hl2]
      · simp only [List.length_cons] at hlen
        omega
  · intro he
    subst he
    exact ⟨[a], List.chain'_singleton a, rfl, rfl, rfl⟩

theorem reachInN_succ_of_adj (cells : List MazeCell) (n a b c : Nat)
    (h : ReachInN cells n a b) (hadj : openAdj cells b c) :
    ReachInN cells (n + 1) a c := by
  obtain ⟨xs, hch, hh, hl, hlen⟩ := h
  have hne : xs ≠ [] := by
    intro h0
    rw [h0] at hh
    exact Option.noConfusion hh
  refine ⟨xs ++ [c], ?_, ?_, ?_, ?_⟩
  · rw [List.chain'_append]
    refine ⟨hch, List.chain'_singleton c, ?_⟩
    intro x hx y hy
    rw [hl] at hx
    injection hx with hx2
    injection hy with hy2
    rw [← hx2, ← hy2]
    exact hadj
  · rw [List.head?_append_of_ne_nil _ hne]
    exact hh
  · rw [List.getLast?_concat]
  · rw [List.length_append, hlen]
    rfl

theorem reachInN_succ_elim (cells : List MazeCell) (n a c : Nat)
    (h : ReachInN cells (n + 1) a c) :
    ∃ b, ReachInN cells n a b ∧ openAdj cells b c := by
  obtain ⟨xs, hch, hh, hl, hlen⟩ := h
  have hne : xs ≠ [] := by
    intro h0
    rw [h0] at hh
    exact Option.noConfusion hh
  have hdec : xs.dropLast ++ [xs.getLast hne] = xs := List.dropLast_append_getLast hne
  have hysne : xs.dropLast ≠ [] := by
    intro h0
    have : xs.length = 1 := by
      rw [← hdec, h0]
      rfl
    omega
  have hlast : xs.getLast hne = c := by
    rw [List.getLast?_eq_getLast xs hne] at hl
    injection hl with hl2
  rw [← hdec] at hch
  rw [List.chain'_append] at hch
  obtain ⟨hch1, _, hedge⟩ := hch
  refine ⟨xs.dropLast.getLast hysne, ⟨xs.dropLast, hch1, ?_, ?_, ?_⟩, ?_⟩
  · have happ : (xs.dropLast ++ [xs.getLast hne]).head? = xs.dropLast.head? :=
      List.head?_append_of_ne_nil _ hysne
    rw [hdec] at happ
    rw [← happ]
    exact hh
  · rw [List.getLast?_eq_getLast _ hysne]
  · have hdl : xs.dropLast.length = xs.length - 1 := List.length_dropLast xs
    omega
  · have := hedge (xs.dropLast.getLast hysne)
      (by rw [List.getLast?_eq_getLast _ hysne]; exact Option.mem_def.mpr rfl) c
      (by rw [← hlast]; exact Option.mem_def.mpr rfl)
    exact this

theorem openDist_spec (cells : List MazeCell) (v : Nat) (h : OpenReach cells 0 v) :
    ReachInN cells (openDist cells 0 v) 0 v :=
  Nat.sInf_mem h

theorem openDist_le (cells : List MazeCell) (n v : Nat) (h : ReachInN cells n 0 v) :
    openDist cells 0 v ≤ n :=
  Nat.sInf_le h

theorem openDist_zero (cells : List MazeCell) : openDist cells 0 0 = 0 :=
  Nat.le_zero.mp (openDist_le cells 0 0 ((reachInN_zero cells 0 0).mpr rfl))

theorem openDist_eq_zero (cells : List MazeCell) (v : Nat) (h : OpenReach cells 0 v)
    (hd : openDist cells 0 v = 0) : v = 0 := by
  have := openDist_spec cells v h
  rw [hd] at this
  exact ((reachInN_zero cells 0 v).mp this).symm

theorem openDist_le_succ (cells : List MazeCell) (u v : Nat) (hu : OpenReach cells 0 u)
    (hadj : openAdj cells u v) : openDist cells 0 v ≤ openDist cells 0 u + 1 :=
  openDist_le cells _ v (reachInN_succ_of_adj cells _ 0 u v (openDist_spec cells u hu) hadj)

theorem openDist_pred (cells : List MazeCell) (v : Nat) (h : OpenReach cells 0 v)
    (hne : v ≠ 0) :
    ∃ u, OpenReach cells 0 u ∧ openAdj cells u v
      ∧ openDist cells 0 u + 1 = openDist cells 0 v := by
  have hspec := openDist_spec cells v h
  rcases hd : openDist cells 0 v with _ | m
  · exact absurd (openDist_eq_zero cells v h hd) hne
  · rw [hd] at hspec
    obtain ⟨u, hr, hadj⟩ := reachInN_succ_elim cells m 0 v hspec
    refine ⟨u, ⟨m, hr⟩, hadj, ?_⟩
    have h1 : openDist cells 0 u ≤ m := openDist_le cells m u hr
    have h2 : openDist cells 0 v ≤ openDist cells 0 u + 1 :=
      openDist_le_succ cells u v ⟨m, hr⟩ hadj
    omega

/-! ## Effect of the relaxation fold -/

theorem relaxStep_none (cells : List MazeCell) (current : Nat) (st : SolveState) (i : Nat)
    (h : (getCell cells current).neighbors.getD i none = none) :
    relaxStep cells current st i = st := by
  unfold relaxStep
  rw [h]

theorem relaxStep_skip (cells : List MazeCell) (current : Nat) (st : SolveState) (i n : Nat)
    (h : (getCell cells current).neighbors.getD i none = some n)
    (hcond : ¬ ((getCell cells current).walls.getD i true = false
      ∧ st.visited.getD n true = false)) :
    relaxStep cells current st i = st := by
  unfold relaxStep
  rw [h]
  show (if (getCell cells current).walls.getD i true = false
      ∧ st.visited.getD n true = false then _ else st) = st
  rw [if_neg hcond]

theorem relaxStep_go (cells : List MazeCell) (current : Nat) (st : SolveState) (i n : Nat)
    (h : (getCell cells current).neighbors.getD i none = some n)
    (hw : (getCell cells current).walls.getD i true = false)
    (hv : st.visited.getD n true = false) :
    relaxStep cells current st i =
      { queue := st.queue ++ [n],
        visited := st.visited.set n true,
        parent := (n, current) :: st.parent } := by
  unfold relaxStep
  rw [h]
  show (if (getCell cells current).walls.getD i true = false
      ∧ st.visited.getD n true = false then _ else st) = _
  rw [if_pos ⟨hw, hv⟩]

theorem relaxGo_spec (cells : List MazeCell) (current : Nat) :
    ∀ (idxs : List Nat) (st : SolveState),
    ∃ ws : List Nat,
      (relaxGo cells current st idxs).queue = st.queue ++ ws
      ∧ (relaxGo cells current st idxs).parent
          = (ws.map (fun w => (w, current))).reverse ++ st.parent
      ∧ (relaxGo cells current st idxs).visited.length = st.visited.length
      ∧ (relaxGo cells current st idxs).visited.count true
          = st.visited.count true + ws.length
      ∧ ws.Nodup
      ∧ (∀ v, (relaxGo cells current st idxs).visited.getD v false = true ↔
          (st.visited.getD v false = true ∨ v ∈ ws))
      ∧ (∀ w ∈ ws, w < st.visited.length ∧ st.visited.getD w false = false
          ∧ ∃ i ∈ idxs, (getCell cells current).neighbors.getD i none = some w
            ∧ (getCell cells current).walls.getD i true = false)
      ∧ (∀ i ∈ idxs, ∀ w, (getCell cells current).neighbors.getD i none = some w →
          (getCell cells current).walls.getD i true = false →
          st.visited.getD w true = false → w ∈ ws) := by
  intro idxs
  induction idxs with
  | nil =>
    intro st
    refine ⟨[], by simp [relaxGo], by simp [relaxGo], rfl, by simp [relaxGo], List.nodup_nil,
      ?_, ?_, ?_⟩
    · intro v
      simp [relaxGo]
    · intro w hw
      exact absurd hw (List.not_mem_nil w)
    · intro i hi
      exact absurd hi (List.not_mem_nil i)
  | cons i idxs ih =>
    intro st
    have hgo : relaxGo cells current st (i :: idxs)
        = relaxGo cells current (relaxStep cells current st i) idxs := rfl
    rcases hs : (getCell cells current).neighbors.getD i none with _ | n
    · -- empty slot: the step is a no-op
      have hstep := relaxStep_none cells current st i hs
      obtain ⟨ws, h1, h2, h3, h4, h5, h6, h7, h8⟩ := ih st
      rw [hgo, hstep]
      refine ⟨ws, h1, h2, h3, h4, h5, h6, ?_, ?_⟩
      · intro w hw
        obtain ⟨ha, hb, j, hj, hc⟩ := h7 w hw
        exact ⟨ha, hb, j, List.mem_cons_of_mem _ hj, hc⟩
      · intro j hj w hslot hw hunvis
        rcases List.mem_cons.mp hj with he | hj2
        · rw [he, hs] at hslot
          exact Option.noConfusion hslot
        · exact h8 j hj2 w hslot hw hunvis
    · by_cases hcond : (getCell cells current).walls.getD i true = false
        ∧ st.visited.getD n true = false
      · -- the slot enqueues n
        have hstep := relaxStep_go cells current st i n hs hcond.1 hcond.2
        set st2 : SolveState :=
          { queue := st.queue ++ [n],
            visited := st.visited.set n true,
            parent := (n, current) :: st.parent } with hst2
        obtain ⟨ws, h1, h2, h3, h4, h5, h6, h7, h8⟩ := ih st2
        have hnlt : n < st.visited.length := getD_lt_of_false _ _ hcond.2
        have hnF : st.visited.getD n false = false :=
          getD_false_default_of_false _ _ hcond.2
        have hvis2 : ∀ v, st2.visited.getD v false
            = if n = v then true else st.visited.getD v false := by
          intro v
          show (st.visited.set n true).getD v false = _
          rw [getD_set_bool]
          by_cases hnv : n = v
          · rw [if_pos ⟨hnv, hnlt⟩, if_pos hnv]
          · rw [if_neg (by tauto), if_neg hnv]
        have hn_not_ws : n ∉ ws := by
          intro hmem
          have := (h7 n hmem).2.1
          rw [hvis2, if_pos rfl] at this
          exact Bool.noConfusion this
        rw [hgo, hstep]
        refine ⟨n :: ws, ?_, ?_, ?_, ?_, ?_, ?_, ?_, ?_⟩
        · rw [h1]
          show st.queue ++ [n] ++ ws = _
          rw [List.append_assoc]
          rfl
        · rw [h2]
          show _ ++ ((n, current) :: st.parent) = _
          rw [List.map_cons, List.reverse_cons, List.append_assoc]
          rfl
        · rw [h3]
          show (st.visited.set n true).length = _
          rw [List.length_set]
        · rw [h4]
          show (st.visited.set n true).count true + ws.length = _
          rw [(count_set_true st.visited n hcond.2).1, List.length_cons]
          omega
        · exact List.nodup_cons.mpr ⟨hn_not_ws, h5⟩
        · intro v
          rw [h6 v, hvis2 v]
          by_cases hnv : n = v
          · rw [if_pos hnv]
            constructor
            · intro _
              exact Or.inr (by rw [← hnv]; exact List.mem_cons_self _ _)
            · intro _
              exact Or.inl rfl
          · rw [if_neg hnv]
            constructor
            · rintro (hv | hv)
              · exact Or.inl hv
              · exact Or.inr (List.mem_cons_of_mem _ hv)
            · rintro (hv | hv)
              · exact Or.inl hv
              · rcases List.mem_cons.mp hv with he | hm
                · exact absurd he.symm hnv
                · exact Or.inr hm
        · intro w hw
          rcases List.mem_cons.mp hw with he | hm
          · subst he
            exact ⟨hnlt, hnF, i, List.mem_cons_self _ _, hs, hcond.1⟩
          · obtain ⟨ha, hb, j, hj, hc⟩ := h7 w hm
            have hwlen : w < st.visited.length := by
              have := ha
              rwa [show st2.visited.length = st.visited.length from by
                show (st.visited.set n true).length = _
                rw [List.length_set]] at this
            refine ⟨hwlen, ?_, j, List.mem_cons_of_mem _ hj, hc⟩
            have := hb
            rw [hvis2 w] at this
            split_ifs at this with hnw
            exact this
        · intro j hj w hslot hwall hunvis
          rcases List.mem_cons.mp hj with he | hj2
          · rw [he, hs] at hslot
            injection hslot with he2
            rw [he2]
            exact List.mem_cons_self _ _
          · by_cases hnw : n = w
            · rw [hnw]
              exact List.mem_cons_self _ _
            · have hunvis2 : st2.visited.getD w true = false := by
                have hwlt : w < st.visited.length := getD_lt_of_false _ _ hunvis
                have hwlt2 : w < st2.visited.length := by
                  rw [show st2.visited.length = st.visited.length from by
                    show (st.visited.set n true).length = _
                    rw [List.length_set]]
                  exact hwlt
                rw [getD_bool_congr _ _ true false hwlt2, hvis2 w, if_neg hnw,
                  ← getD_bool_congr _ _ true false hwlt]
                exact hunvis
              exact List.mem_cons_of_mem _ (h8 j hj2 w hslot hwall hunvis2)
      · -- closed wall or already-visited target: no-op
        have hstep := relaxStep_skip cells current st i n hs hcond
        obtain ⟨ws, h1, h2, h3, h4, h5, h6, h7, h8⟩ := ih st
        rw [hgo, hstep]
        refine ⟨ws, h1, h2, h3, h4, h5, h6, ?_, ?_⟩
        · intro w hw
          obtain ⟨ha, hb, j, hj, hc⟩ := h7 w hw
          exact ⟨ha, hb, j, List.mem_cons_of_mem _ hj, hc⟩
        · intro j hj w hslot hwall hunvis
          rcases List.mem_cons.mp hj with he | hj2
          · exfalso
            rw [he] at hslot hwall
            rw [hs] at hslot
            injection hslot with he2
            rw [← he2] at hunvis
            exact hcond ⟨hwall, hunvis⟩
          · exact h8 j hj2 w hslot hwall hunvis

/-! ## BFS: one relaxation pass, loop equations, parent lookups -/

theorem relax_spec (cells : List MazeCell) (current : Nat) (st : SolveState) :
    ∃ ws : List Nat,
      (relax cells current st).queue = st.queue ++ ws
      ∧ (relax cells current st).parent
          = (ws.map (fun w => (w, current))).reverse ++ st.parent
      ∧ (relax cells current st).visited.length = st.visited.length
      ∧ (relax cells current st).visited.count true
          = st.visited.count true + ws.length
      ∧ ws.Nodup
      ∧ (∀ v, (relax cells current st).visited.getD v false = true ↔
          (st.visited.getD v false = true ∨ v ∈ ws))
      ∧ (∀ w ∈ ws, w < st.visited.length ∧ st.visited.getD w false = false
          ∧ openAdj cells current w)
      ∧ (∀ w, openAdj cells current w → st.visited.getD w true = false → w ∈ ws) := by
  obtain ⟨ws, h1, h2, h3, h4, h5, h6, h7, h8⟩ :=
    relaxGo_spec cells current (List.range (getCell cells current).neighbors.length) st
  refine ⟨ws, h1, h2, h3, h4, h5, h6, ?_, ?_⟩
  · intro w hw
    obtain ⟨ha, hb, i, _, hs, hwall⟩ := h7 w hw
    exact ⟨ha, hb, i, hs, hwall⟩
  · intro w hadj hunvis
    obtain ⟨i, hs, hwall⟩ := hadj
    exact h8 i (List.mem_range.mpr (getD_opt_lt _ i w hs)) w hs hwall hunvis

theorem bfsLoop_empty (cells : List MazeCell) (endCell fuel : Nat) (st : SolveState)
    (hq : st.queue = []) : bfsLoop cells endCell fuel st = st := by
  cases fuel with
  | zero => rfl
  | succ f =>
    conv_lhs => unfold bfsLoop
    rw [hq]

theorem bfsLoop_break (cells : List MazeCell) (endCell fuel : Nat) (st : SolveState)
    (current : Nat) (rest : List Nat) (hq : st.queue = current :: rest)
    (he : current = endCell) :
    bfsLoop cells endCell (fuel + 1) st = { st with queue := rest } := by
  conv_lhs => unfold bfsLoop
  rw [hq]
  show (if current = endCell then _ else _) = _
  rw [if_pos he]

theorem bfsLoop_cont (cells : List MazeCell) (endCell fuel : Nat) (st : SolveState)
    (current : Nat) (rest : List Nat) (hq : st.queue = current :: rest)
    (he : ¬ current = endCell) :
    bfsLoop cells endCell (fuel + 1) st
      = bfsLoop cells endCell fuel (relax cells current { st with queue := rest }) := by
  conv_lhs => unfold bfsLoop
  rw [hq]
  show (if current = endCell then _ else _) = _
  rw [if_neg he]

theorem buildPath_zero (parent : List (Nat × Nat)) (fuel : Nat) (path : List Nat) :
    buildPath parent fuel 0 path = path := by
  cases fuel with
  | zero => rfl
  | succ f =>
    show (if (0 : Nat) = 0 then path else _) = path
    rw [if_pos rfl]

theorem buildPath_step (parent : List (Nat × Nat)) (fuel current prev : Nat)
    (path : List Nat) (h0 : current ≠ 0)
    (hp : lookupParent parent current = some prev) :
    buildPath parent (fuel + 1) current path
      = buildPath parent fuel prev (path ++ [prev]) := by
  conv_lhs => unfold buildPath
  rw [if_neg h0, hp]

theorem buildPath_stop (parent : List (Nat × Nat)) (fuel current : Nat)
    (path : List Nat) (h0 : current ≠ 0)
    (hp : lookupParent parent current = none) :
    buildPath parent (fuel + 1) current path = path := by
  conv_lhs => unfold buildPath
  rw [if_neg h0, hp]

theorem lookupParent_eq (parent : List (Nat × Nat))
    (hnd : (parent.map Prod.fst).Nodup) (k p : Nat) (hm : (k, p) ∈ parent) :
    lookupParent parent k = some p := by
  induction parent with
  | nil => exact absurd hm (List.not_mem_nil _)
  | cons hd tl ih =>
    rw [List.map_cons, List.nodup_cons] at hnd
    rcases List.mem_cons.mp hm with he | hm2
    · unfold lookupParent
      rw [List.find?_cons_of_pos _ (by rw [← he]; simp)]
      rw [← he]
      rfl
    · have hk : k ∈ tl.map Prod.fst := List.mem_map.mpr ⟨(k, p), hm2, rfl⟩
      have hne : ¬ (hd.1 = k) := fun h => hnd.1 (h ▸ hk)
      unfold lookupParent
      rw [List.find?_cons_of_neg _ (by simp [hne])]
      exact ih hnd.2 hm2

theorem lookupParent_none (parent : List (Nat × Nat)) (k : Nat)
    (hk : k ∉ parent.map Prod.fst) : lookupParent parent k = none := by
  have hf : parent.find? (fun q => q.1 = k) = none := by
    rw [List.find?_eq_none]
    intro x hx h
    exact hk (List.mem_map.mpr ⟨x, hx, by simpa using h⟩)
  unfold lookupParent
  rw [hf]
  rfl

theorem bfsInv_init (cells : List MazeCell) (hN : 1 ≤ cells.length) :
    BfsInv cells
      { queue := [0],
        visited := (List.replicate cells.length false).set 0 true,
        parent := [] } := by
  have hchar : ∀ v,
      ((List.replicate cells.length false).set 0 true).getD v false = true ↔ v = 0 :=
    fun v => init_visited_getD cells.length v hN
  refine ⟨?_, ?_, ?_, ?_, ?_, ?_, ?_, ?_, ?_, ?_⟩
  · show ((List.replicate cells.length false).set 0 true).length = _
    rw [List.length_set, List.length_replicate]
  · exact (hchar 0).mpr rfl
  · intro v hv
    rw [List.mem_singleton.mp hv]
    exact (hchar 0).mpr rfl
  · intro v hv
    have hv0 : v = 0 := (hchar v).mp hv
    rw [hv0]
    exact ⟨0, (reachInN_zero cells 0 0).mpr rfl⟩
  · show (([] : List (Nat × Nat)).map Prod.fst).Nodup
    simp
  · intro k p hm
    exact absurd hm (List.not_mem_nil _)
  · intro v hv hne
    exact absurd ((hchar v).mp hv) hne
  · intro k p hm
    exact absurd hm (List.not_mem_nil _)
  · intro v hv hnq w _ _
    exfalso
    have hv0 : v = 0 := (hchar v).mp hv
    apply hnq
    rw [hv0]
    exact List.mem_singleton.mpr rfl
  · refine ⟨0, [0], [], rfl, ?_, ?_, ?_, ?_⟩
    · intro u hu
      rw [List.mem_singleton.mp hu]
      exact openDist_zero cells
    · intro u hu
      exact absurd hu (List.not_mem_nil _)
    · intro v _ hreach hle
      have hv0 : v = 0 := openDist_eq_zero cells v hreach (Nat.le_zero.mp hle)
      exact (hchar v).mpr hv0
    · intro v hv
      have hv0 : v = 0 := (hchar v).mp hv
      rw [hv0, openDist_zero]
      omega

theorem bfsInv_empty_complete (cells : List MazeCell) (st : SolveState)
    (hinv : BfsInv cells st) (hq : st.queue = []) :
    ∀ v, v < cells.length → OpenReach cells 0 v → st.visited.getD v false = true := by
  have key : ∀ n v, ReachInN cells n 0 v → v < cells.length →
      st.visited.getD v false = true := by
    intro n
    induction n with
    | zero =>
      intro v hr _
      rw [← (reachInN_zero cells 0 v).mp hr]
      exact hinv.vis0
    | succ m ih =>
      intro v hr hvlt
      obtain ⟨u, hru, hadj⟩ := reachInN_succ_elim cells m 0 v hr
      have hult : u < cells.length := openAdj_lt cells u v hadj
      have hu := ih u hru hult
      have hunq : u ∉ st.queue := by
        rw [hq]
        exact List.not_mem_nil u
      exact hinv.processed u hu hunq v hvlt hadj
  intro v hvlt hreach
  obtain ⟨n, hr⟩ := hreach
  exact key n v hr hvlt

/-! ## BFS: invariant preservation for one loop iteration -/

theorem map_fst_pair (c : Nat) (l : List Nat) :
    (l.map (fun w => (w, c))).map Prod.fst = l := by
  induction l with
  | nil => rfl
  | cons x t ih =>
    simp only [List.map_cons]
    rw [ih]

theorem bfsInv_pop_levels (cells : List MazeCell) (st : SolveState)
    (hinv : BfsInv cells st) (current : Nat) (rest : List Nat)
    (hq : st.queue = current :: rest) :
    ∃ d A B, rest = A ++ B
      ∧ openDist cells 0 current = d
      ∧ (∀ u ∈ A, openDist cells 0 u = d)
      ∧ (∀ u ∈ B, openDist cells 0 u = d + 1)
      ∧ (∀ v, v < cells.length → OpenReach cells 0 v → openDist cells 0 v ≤ d →
          st.visited.getD v false = true)
      ∧ (∀ v, st.visited.getD v false = true → openDist cells 0 v ≤ d + 1) := by
  obtain ⟨d, A, B, hsplit, hA, hB, hcomp, hbound⟩ := hinv.levels
  rcases A with _ | ⟨a, A2⟩
  · rw [List.nil_append] at hsplit
    rw [hq] at hsplit
    have hcur : current ∈ B := by
      rw [← hsplit]
      exact List.mem_cons_self _ _
    have hrest : ∀ u ∈ rest, u ∈ B := by
      intro u hu
      rw [← hsplit]
      exact List.mem_cons_of_mem _ hu
    refine ⟨d + 1, rest, [], (List.append_nil rest).symm, hB current hcur,
      fun u hu => hB u (hrest u hu), fun u hu => absurd hu (List.not_mem_nil u), ?_, ?_⟩
    · intro v hvlt hreach hle
      rcases Nat.lt_or_ge (openDist cells 0 v) (d + 1) with hlt | hge
      · exact hcomp v hvlt hreach (by omega)
      · have hdv : openDist cells 0 v = d + 1 := by omega
        have hvne : v ≠ 0 := by
          intro h0
          rw [h0, openDist_zero] at hdv
          omega
        obtain ⟨u, hur, huadj, hud⟩ := openDist_pred cells v hreach hvne
        have hudist : openDist cells 0 u = d := by omega
        have hult : u < cells.length := openAdj_lt cells u v huadj
        have huvis : st.visited.getD u false = true := hcomp u hult hur (by omega)
        have hunq : u ∉ st.queue := by
          intro humem
          rw [hq, hsplit] at humem
          have := hB u humem
          omega
        exact hinv.processed u huvis hunq v hvlt huadj
    · intro v hv
      have := hbound v hv
      omega
  · rw [hq, List.cons_append] at hsplit
    injection hsplit with h1 h2
    refine ⟨d, A2, B, h2, ?_, fun u hu => hA u (List.mem_cons_of_mem _ hu),
      hB, hcomp, hbound⟩
    rw [h1]
    exact hA a (List.mem_cons_self _ _)

theorem bfsInv_step (cells : List MazeCell) (st : SolveState) (current : Nat)
    (rest : List Nat) (hinv : BfsInv cells st) (hq : st.queue = current :: rest) :
    BfsInv cells (relax cells current { st with queue := rest })
    ∧ (relax cells current { st with queue := rest }).queue.length
        + 2 * (cells.length
            - (relax cells current { st with queue := rest }).visited.count true)
      < st.queue.length + 2 * (cells.length - st.visited.count true) := by
  obtain ⟨d, A, B, hrest, hdc, hA, hB, hcomp, hbound⟩ :=
    bfsInv_pop_levels cells st hinv current rest hq
  set st1 : SolveState := { st with queue := rest } with hst1
  obtain ⟨ws, h1, h2, h3, h4, h5, h6, h7, h8⟩ := relax_spec cells current st1
  have hv1 : st1.visited = st.visited := rfl
  have hp1 : st1.parent = st.parent := rfl
  have hq1 : st1.queue = rest := rfl
  have hcurvis : st.visited.getD current false = true :=
    hinv.queueVis current (by rw [hq]; exact List.mem_cons_self _ _)
  have hcurreach : OpenReach cells 0 current := hinv.visReach current hcurvis
  have hwsadj : ∀ w ∈ ws, openAdj cells current w := fun w hw => (h7 w hw).2.2
  have hwsreach : ∀ w ∈ ws, OpenReach cells 0 w := by
    intro w hw
    obtain ⟨n, hr⟩ := hcurreach
    exact ⟨n + 1, reachInN_succ_of_adj cells n 0 current w hr (hwsadj w hw)⟩
  have hwsfresh : ∀ w ∈ ws, st.visited.getD w false = false :=
    fun w hw => (h7 w hw).2.1
  have hwslt : ∀ w ∈ ws, w < cells.length := by
    intro w hw
    have := (h7 w hw).1
    rwa [hv1, hinv.visLen] at this
  have hwsdist : ∀ w ∈ ws, openDist cells 0 w = d + 1 := by
    intro w hw
    have hub : openDist cells 0 w ≤ openDist cells 0 current + 1 :=
      openDist_le_succ cells current w hcurreach (hwsadj w hw)
    rw [hdc] at hub
    rcases Nat.lt_or_ge (openDist cells 0 w) (d + 1) with hlt | hge
    · exfalso
      have hvis := hcomp w (hwslt w hw) (hwsreach w hw) (by omega)
      rw [hwsfresh w hw] at hvis
      exact Bool.noConfusion hvis
    · omega
  have hmapfst : (ws.map (fun w => (w, current))).map Prod.fst = ws :=
    map_fst_pair current ws
  have hkeys : (relax cells current st1).parent.map Prod.fst
      = ws.reverse ++ st.parent.map Prod.fst := by
    rw [h2, hp1, List.map_append, List.map_reverse, hmapfst]
  have hmemparent : ∀ k p, (k, p) ∈ (relax cells current st1).parent ↔
      ((k ∈ ws ∧ p = current) ∨ (k, p) ∈ st.parent) := by
    intro k p
    rw [h2, hp1, List.mem_append, List.mem_reverse, List.mem_map]
    constructor
    · rintro (⟨w, hw, he⟩ | hm)
      · injection he with e1 e2
        exact Or.inl ⟨e1 ▸ hw, e2.symm⟩
      · exact Or.inr hm
    · rintro (⟨hk, hp⟩ | hm)
      · exact Or.inl ⟨k, hk, by rw [hp]⟩
      · exact Or.inr hm
  have hmono : ∀ v, st.visited.getD v false = true →
      (relax cells current st1).visited.getD v false = true := by
    intro v hv
    exact (h6 v).mpr (Or.inl hv)
  constructor
  · refine ⟨?_, ?_, ?_, ?_, ?_, ?_, ?_, ?_, ?_, ?_⟩
    · rw [h3]
      exact hinv.visLen
    · exact hmono 0 hinv.vis0
    · intro v hv
      rw [h1] at hv
      rcases List.mem_append.mp hv with hvr | hvw
      · exact hmono v (hinv.queueVis v (by rw [hq]; exact List.mem_cons_of_mem _ hvr))
      · exact (h6 v).mpr (Or.inr hvw)
    · intro v hv
      rcases (h6 v).mp hv with hold | hnew
      · exact hinv.visReach v hold
      · exact hwsreach v hnew
    · rw [hkeys, List.nodup_append]
      refine ⟨List.nodup_reverse.mpr h5, hinv.parentKeys, ?_⟩
      intro a ha hb
      obtain ⟨q, hm2, hfst⟩ := List.mem_map.mp hb
      have hvisa : st.visited.getD a false = true := by
        have := (hinv.parentVis q.1 q.2 hm2).1
        rwa [hfst] at this
      have hfresh := hwsfresh a (List.mem_reverse.mp ha)
      rw [hvisa] at hfresh
      exact Bool.noConfusion hfresh
    · intro k p hm
      rcases (hmemparent k p).mp hm with ⟨hk, hp⟩ | hold
      · refine ⟨(h6 k).mpr (Or.inr hk), ?_, ?_, ?_⟩
        · rw [hp]
          exact hmono current hcurvis
        · rw [hp]
          exact hwsadj k hk
        · intro h0
          have := hwsfresh k hk
          rw [h0, hinv.vis0] at this
          exact Bool.noConfusion this
      · obtain ⟨ha, hb, hc, hd2⟩ := hinv.parentVis k p hold
        exact ⟨hmono k ha, hmono p hb, hc, hd2⟩
    · intro v hv hne
      rcases (h6 v).mp hv with hold | hnew
      · have := hinv.parentCover v hold hne
        rw [hkeys]
        exact List.mem_append.mpr (Or.inr this)
      · rw [hkeys]
        exact List.mem_append.mpr (Or.inl (List.mem_reverse.mpr hnew))
    · intro k p hm
      rcases (hmemparent k p).mp hm with ⟨hk, hp⟩ | hold
      · rw [hp, hwsdist k hk, hdc]
      · exact hinv.parentDist k p hold
    · intro v hv hnq w hwlt hadj
      have hvq : v ∉ rest ∧ v ∉ ws := by
        constructor
        · intro hvr
          exact hnq (by rw [h1]; exact List.mem_append.mpr (Or.inl hvr))
        · intro hvw
          exact hnq (by rw [h1]; exact List.mem_append.mpr (Or.inr hvw))
      have hold : st.visited.getD v false = true := by
        rcases (h6 v).mp hv with hold | hnew
        · exact hold
        · exact absurd hnew hvq.2
      by_cases hvc : v = current
      · rw [hvc] at hadj
        by_cases hwvis : st.visited.getD w true = false
        · exact (h6 w).mpr (Or.inr (h8 w hadj hwvis))
        · have hwt : st.visited.getD w true = true := by
            rcases Bool.eq_false_or_eq_true (st.visited.getD w true) with ht | hf
            · exact ht
            · exact absurd hf hwvis
          have hwlt2 : w < st.visited.length := by
            rw [hinv.visLen]
            exact hwlt
          have hwf : st.visited.getD w false = true := by
            rw [getD_bool_congr _ _ false true hwlt2]
            exact hwt
          exact hmono w hwf
      · have hvnq : v ∉ st.queue := by
          rw [hq]
          intro hmem
          rcases List.mem_cons.mp hmem with he | hr
          · exact hvc he
          · exact hvq.1 hr
        exact hmono w (hinv.processed v hold hvnq w hwlt hadj)
    · refine ⟨d, A, B ++ ws, ?_, hA, ?_, ?_, ?_⟩
      · rw [h1, hq1, hrest, List.append_assoc]
      · intro u hu
        rcases List.mem_append.mp hu with hub | huw
        · exact hB u hub
        · exact hwsdist u huw
      · intro v hvlt hreach hle
        exact hmono v (hcomp v hvlt hreach hle)
      · intro v hv
        rcases (h6 v).mp hv with hold | hnew
        · exact hbound v hold
        · rw [hwsdist v hnew]
  · have hql : (relax cells current st1).queue.length = rest.length + ws.length := by
      rw [h1, hq1, List.length_append]
    have hcnt : (relax cells current st1).visited.count true
        = st.visited.count true + ws.length := h4
    have hle : (relax cells current st1).visited.count true ≤ cells.length := by
      calc (relax cells current st1).visited.count true
          ≤ (relax cells current st1).visited.length := List.count_le_length _ _
        _ = cells.length := by rw [h3]; exact hinv.visLen
    rw [hql, hcnt, hq, List.length_cons]
    omega

/-! ## BFS: running the loop to completion -/

theorem bfsLoop_run (cells : List MazeCell) (endCell : Nat) :
    ∀ fuel st, BfsInv cells st →
      st.queue.length + 2 * (cells.length - st.visited.count true) < fuel →
      BfsPost cells (bfsLoop cells endCell fuel st)
      ∧ (endCell < cells.length → OpenReach cells 0 endCell →
          (bfsLoop cells endCell fuel st).visited.getD endCell false = true) := by
  intro fuel
  induction fuel with
  | zero =>
    intro st _ hlt
    omega
  | succ f ih =>
    intro st hinv hlt
    rcases hqe : st.queue with _ | ⟨current, rest⟩
    · rw [bfsLoop_empty cells endCell (f + 1) st hqe]
      refine ⟨⟨hinv.visLen, hinv.vis0, hinv.visReach, hinv.parentKeys,
        hinv.parentVis, hinv.parentCover, hinv.parentDist⟩, ?_⟩
      intro hlt2 hreach
      exact bfsInv_empty_complete cells st hinv hqe endCell hlt2 hreach
    · by_cases hbr : current = endCell
      · rw [bfsLoop_break cells endCell f st current rest hqe hbr]
        refine ⟨⟨hinv.visLen, hinv.vis0, hinv.visReach, hinv.parentKeys,
          hinv.parentVis, hinv.parentCover, hinv.parentDist⟩, ?_⟩
        intro _ _
        show st.visited.getD endCell false = true
        rw [← hbr]
        exact hinv.queueVis current (by rw [hqe]; exact List.mem_cons_self _ _)
      · rw [bfsLoop_cont cells endCell f st current rest hqe hbr]
        obtain ⟨hinv2, hdec⟩ := bfsInv_step cells st current rest hinv hqe
        rw [hqe] at hlt
        exact ih (relax cells current { st with queue := rest }) hinv2
          (by rw [hqe] at hdec; omega)

/-! ## BFS: the reachable distance is below the cell count -/

theorem openDist_lt_length (cells : List MazeCell) (v : Nat) (hv : v < cells.length)
    (hreach : OpenReach cells 0 v) : openDist cells 0 v < cells.length := by
  set m := openDist cells 0 v with hm
  have hstep : ∀ j, j ≤ m → ∃ u, u < cells.length ∧ OpenReach cells 0 u
      ∧ openDist cells 0 u = m - j := by
    intro j
    induction j with
    | zero =>
      intro _
      refine ⟨v, hv, hreach, ?_⟩
      rw [Nat.sub_zero]
    | succ i ihj =>
      intro hle
      obtain ⟨u, hult, hur, hud⟩ := ihj (by omega)
      have hune : u ≠ 0 := by
        intro h0
        rw [h0, openDist_zero] at hud
        omega
      obtain ⟨w, hwr, hwadj, hwd⟩ := openDist_pred cells u hur hune
      refine ⟨w, openAdj_lt cells w u hwadj, hwr, ?_⟩
      omega
  have hchoice : ∀ j : Fin (m + 1), ∃ u, u < cells.length ∧ OpenReach cells 0 u
      ∧ openDist cells 0 u = m - j := fun j => hstep j (by omega)
  choose f hf using hchoice
  have hinj : Function.Injective
      (fun j : Fin (m + 1) => (⟨f j, (hf j).1⟩ : Fin cells.length)) := by
    intro a b hab
    have hfe : f a = f b := congrArg Fin.val hab
    have hda := (hf a).2.2
    have hdb := (hf b).2.2
    rw [hfe] at hda
    have hsub : m - (a : Nat) = m - (b : Nat) := by
      rw [← hda, ← hdb]
    have ha := a.isLt
    have hb := b.isLt
    exact Fin.ext (by omega)
  have hcard := Fintype.card_le_of_injective _ hinj
  simp only [Fintype.card_fin] at hcard
  omega

/-! ## BFS: path reconstruction from the parent map -/

theorem buildPath_spec (cells : List MazeCell) (stf : SolveState)
    (hpost : BfsPost cells stf) :
    ∀ k current, stf.visited.getD current false = true →
      openDist cells 0 current = k →
      ∀ fuel, k < fuel → ∀ path,
      ∃ ch : List Nat,
        buildPath stf.parent fuel current path = path ++ ch
        ∧ ch.length = k
        ∧ List.Chain' (fun a b => openAdj cells b a) (current :: ch)
        ∧ (current :: ch).getLast? = some 0 := by
  intro k
  induction k with
  | zero =>
    intro current hvis hd fuel _ path
    have hc0 : current = 0 :=
      openDist_eq_zero cells current (hpost.visReach current hvis) hd
    refine ⟨[], ?_, rfl, List.chain'_singleton _, ?_⟩
    · rw [hc0, buildPath_zero, List.append_nil]
    · rw [hc0]
      rfl
  | succ k ih =>
    intro current hvis hd fuel hfuel path
    have hcne : current ≠ 0 := by
      intro h0
      rw [h0, openDist_zero] at hd
      omega
    have hmem : current ∈ stf.parent.map Prod.fst :=
      hpost.parentCover current hvis hcne
    obtain ⟨q, hqm, hfst⟩ := List.mem_map.mp hmem
    have hqm2 : (current, q.2) ∈ stf.parent := by
      rw [← hfst]
      exact hqm
    obtain ⟨hkv, hpv, hadj, _⟩ := hpost.parentVis current q.2 hqm2
    have hpd := hpost.parentDist current q.2 hqm2
    have hpdist : openDist cells 0 q.2 = k := by
      rw [hd] at hpd
      omega
    have hlk : lookupParent stf.parent current = some q.2 :=
      lookupParent_eq stf.parent hpost.parentKeys current q.2 hqm2
    rcases fuel with _ | f
    · omega
    · rw [buildPath_step stf.parent f current q.2 path hcne hlk]
      obtain ⟨ch, heq, hlen, hch, hlast⟩ :=
        ih q.2 hpv hpdist f (by omega) (path ++ [q.2])
      refine ⟨q.2 :: ch, ?_, ?_, ?_, ?_⟩
      · rw [heq, List.append_assoc]
        rfl
      · rw [List.length_cons, hlen]
      · rw [List.chain'_cons]
        exact ⟨hadj, hch⟩
      · rw [List.getLast?_cons_cons]
        exact hlast

theorem buildPath_stop_all (parent : List (Nat × Nat)) (fuel current : Nat)
    (path : List Nat) (h0 : current ≠ 0)
    (hp : lookupParent parent current = none) :
    buildPath parent fuel current path = path := by
  cases fuel with
  | zero => rfl
  | succ f => exact buildPath_stop parent f current path h0 hp

theorem no_openReach_of_allWallsTrue (cells : List MazeCell)
    (hall : allWallsTrue cells) (v : Nat) (hv : v ≠ 0) :
    ¬ OpenReach cells 0 v := by
  rintro ⟨n, hr⟩
  cases n with
  | zero => exact hv ((reachInN_zero cells 0 v).mp hr).symm
  | succ k =>
    obtain ⟨u, _, hadj⟩ := reachInN_succ_elim cells k 0 v hr
    obtain ⟨i, _, hw⟩ := hadj
    rw [hall u i] at hw
    exact Bool.noConfusion hw

/-- C2: for every maze state in which cell `N-1` is reachable from cell 0
through open walls, `solve` returns a path that starts at cell 0, ends at
cell `N-1`, has every consecutive pair of cells joined by a neighbor slot
with an open wall, and is shortest by number of edges among all such
paths. -/
theorem solve_shortest (m : GenericMaze) (hN : 1 ≤ m.cells.length)
    (hreach : OpenReach m.cells 0 (m.cells.length - 1)) :
    m.solve.head? = some 0
    ∧ m.solve.getLast? = some (m.cells.length - 1)
    ∧ m.solve.Chain' (openAdj m.cells)
    ∧ ∀ xs : List Nat, xs.Chain' (openAdj m.cells) → xs.head? = some 0 →
        xs.getLast? = some (m.cells.length - 1) → m.solve.length ≤ xs.length := by
  set st0 : SolveState :=
    { queue := [0],
      visited := (List.replicate m.cells.length false).set 0 true,
      parent := [] } with hst0
  set stf := bfsLoop m.cells (m.cells.length - 1) (2 * m.cells.length + 1) st0 with hstf
  have hsolve : m.solve
      = (buildPath stf.parent m.cells.length (m.cells.length - 1)
          [m.cells.length - 1]).reverse := rfl
  have hinv0 : BfsInv m.cells st0 := bfsInv_init m.cells hN
  have hmeas : st0.queue.length + 2 * (m.cells.length - st0.visited.count true)
      < 2 * m.cells.length + 1 := by
    show [0].length + 2 * (m.cells.length
        - ((List.replicate m.cells.length false).set 0 true).count true)
      < 2 * m.cells.length + 1
    rw [init_visited_count m.cells.length hN]
    show 1 + 2 * (m.cells.length - 1) < 2 * m.cells.length + 1
    omega
  obtain ⟨hpost, hendvis⟩ :=
    bfsLoop_run m.cells (m.cells.length - 1) (2 * m.cells.length + 1) st0 hinv0 hmeas
  have hendlt : m.cells.length - 1 < m.cells.length := by omega
  have hvis : stf.visited.getD (m.cells.length - 1) false = true :=
    hendvis hendlt hreach
  have hdlt : openDist m.cells 0 (m.cells.length - 1) < m.cells.length :=
    openDist_lt_length m.cells (m.cells.length - 1) hendlt hreach
  obtain ⟨ch, heq, hlen, hch, hlast⟩ :=
    buildPath_spec m.cells stf hpost (openDist m.cells 0 (m.cells.length - 1))
      (m.cells.length - 1) hvis rfl m.cells.length hdlt [m.cells.length - 1]
  have hr : m.solve = ((m.cells.length - 1) :: ch).reverse := by
    rw [hsolve, heq]
    rfl
  refine ⟨?_, ?_, ?_, ?_⟩
  · rw [hr, List.head?_reverse]
    exact hlast
  · rw [hr, List.getLast?_reverse]
    rfl
  · rw [hr]
    exact List.chain'_reverse.mpr hch
  · intro xs hxch hxh hxl
    have hxne : xs ≠ [] := by
      intro h0
      rw [h0] at hxh
      exact Option.noConfusion hxh
    have hxpos : 1 ≤ xs.length := List.length_pos.mpr hxne
    have hrin : ReachInN m.cells (xs.length - 1) 0 (m.cells.length - 1) :=
      ⟨xs, hxch, hxh, hxl, by omega⟩
    have hdle : openDist m.cells 0 (m.cells.length - 1) ≤ xs.length - 1 :=
      openDist_le m.cells (xs.length - 1) (m.cells.length - 1) hrin
    have hrlen : m.solve.length = openDist m.cells 0 (m.cells.length - 1) + 1 := by
      rw [hr, List.length_reverse, List.length_cons, hlen]
    omega

/-- Witness for `solve_shortest`: the 1×2 rectangular maze generated with the
constant-zero seed stream, in which cell 1 is reachable from cell 0. -/
theorem solve_shortest_witness :
    ((GenericMaze.new .rectangular 1 2).generate (fun _ => 0)).solve.head? = some 0
    ∧ ((GenericMaze.new .rectangular 1 2).generate (fun _ => 0)).solve.getLast?
        = some (((GenericMaze.new .rectangular 1 2).generate
            (fun _ => 0)).cells.length - 1)
    ∧ ((GenericMaze.new .rectangular 1 2).generate (fun _ => 0)).solve.Chain'
        (openAdj ((GenericMaze.new .rectangular 1 2).generate (fun _ => 0)).cells)
    ∧ ∀ xs : List Nat,
        xs.Chain' (openAdj ((GenericMaze.new .rectangular 1 2).generate
          (fun _ => 0)).cells) →
        xs.head? = some 0 →
        xs.getLast? = some (((GenericMaze.new .rectangular 1 2).generate
          (fun _ => 0)).cells.length - 1) →
        ((GenericMaze.new .rectangular 1 2).generate
          (fun _ => 0)).solve.length ≤ xs.length :=
  solve_shortest ((GenericMaze.new .rectangular 1 2).generate (fun _ => 0))
    (by decide)
    ⟨1, [0, 1], List.chain'_pair.mpr ⟨1, by decide, by decide⟩, rfl, rfl, by decide⟩

/-- C10: for every maze state with at least two cells in which cell `N-1` is
not reachable from cell 0 through open walls, `solve` returns a sequence that
ends at `N-1` and does not contain cell 0; when every wall is closed the
result is exactly `[N-1]`. -/
theorem solve_unreachable (m : GenericMaze) (hN : 2 ≤ m.cells.length)
    (hun : ¬ OpenReach m.cells 0 (m.cells.length - 1)) :
    m.solve.getLast? = some (m.cells.length - 1)
    ∧ 0 ∉ m.solve
    ∧ (allWallsTrue m.cells → m.solve = [m.cells.length - 1]) := by
  have hN1 : 1 ≤ m.cells.length := by omega
  set st0 : SolveState :=
    { queue := [0],
      visited := (List.replicate m.cells.length false).set 0 true,
      parent := [] } with hst0
  set stf := bfsLoop m.cells (m.cells.length - 1) (2 * m.cells.length + 1) st0 with hstf
  have hsolve : m.solve
      = (buildPath stf.parent m.cells.length (m.cells.length - 1)
          [m.cells.length - 1]).reverse := rfl
  have hinv0 : BfsInv m.cells st0 := bfsInv_init m.cells hN1
  have hmeas : st0.queue.length + 2 * (m.cells.length - st0.visited.count true)
      < 2 * m.cells.length + 1 := by
    show [0].length + 2 * (m.cells.length
        - ((List.replicate m.cells.length false).set 0 true).count true)
      < 2 * m.cells.length + 1
    rw [init_visited_count m.cells.length hN1]
    show 1 + 2 * (m.cells.length - 1) < 2 * m.cells.length + 1
    omega
  obtain ⟨hpost, _⟩ :=
    bfsLoop_run m.cells (m.cells.length - 1) (2 * m.cells.length + 1) st0 hinv0 hmeas
  have hnv : stf.visited.getD (m.cells.length - 1) false = false := by
    rcases Bool.eq_false_or_eq_true (stf.visited.getD (m.cells.length - 1) false)
      with ht | hf
    · exact absurd (hpost.visReach _ ht) hun
    · exact hf
  have hnk : (m.cells.length - 1) ∉ stf.parent.map Prod.fst := by
    intro hmem
    obtain ⟨q, hqm, hfst⟩ := List.mem_map.mp hmem
    have hq2 : (m.cells.length - 1, q.2) ∈ stf.parent := by
      rw [← hfst]
      exact hqm
    have := (hpost.parentVis (m.cells.length - 1) q.2 hq2).1
    rw [hnv] at this
    exact Bool.noConfusion this
  have hlk : lookupParent stf.parent (m.cells.length - 1) = none :=
    lookupParent_none stf.parent _ hnk
  have hne0 : m.cells.length - 1 ≠ 0 := by omega
  have hres : m.solve = [m.cells.length - 1] := by
    rw [hsolve,
      buildPath_stop_all stf.parent m.cells.length (m.cells.length - 1)
        [m.cells.length - 1] hne0 hlk]
    rfl
  rw [hres]
  refine ⟨rfl, ?_, fun _ => rfl⟩
  intro hmem
  have := List.mem_singleton.mp hmem
  omega

/-- Witness for `solve_unreachable`: the freshly built 2×1 rectangular grid,
whose walls are all closed. -/
theorem solve_unreachable_witness :
    (GenericMaze.new .rectangular 2 1).solve.getLast?
        = some ((GenericMaze.new .rectangular 2 1).cells.length - 1)
    ∧ 0 ∉ (GenericMaze.new .rectangular 2 1).solve
    ∧ (allWallsTrue (GenericMaze.new .rectangular 2 1).cells →
        (GenericMaze.new .rectangular 2 1).solve
          = [(GenericMaze.new .rectangular 2 1).cells.length - 1]) :=
  solve_unreachable (GenericMaze.new .rectangular 2 1) (by decide)
    (no_openReach_of_allWallsTrue _ (allWallsTrue_new .rectangular 2 1) _ (by decide))

end Maze
